import Mathlib

/-!
# Verification of the wails v2 menu-item tree (`v2/pkg/menu/menuitem.go`)

The Go code manipulates a mutable tree of `*MenuItem` nodes: each node owns an
ordered slice `SubMenu` of child pointers and keeps a non-owning back pointer
`parent`.  We embed this shallowly: a pointer is an address (`Addr := Nat`),
the mutable store is a total function `Heap : Addr → MenuItem`, and every Go
method becomes a Lean function threading the heap explicitly.  The two
recursive walks (`getByID`, `removeByID`) take a fuel argument because the raw
pointer structure need not be well founded; all theorems supply enough fuel
for the trees they quantify over.
-/

namespace Menu

/-- Address of a node: stands for a Go pointer.  Identity comparison of
pointers becomes equality of addresses. -/
abbrev Addr := Nat

/-- `Type` in the Go source (Text, Separator, Checkbox, Radio, Submenu).
The constant names follow the Go constants. -/
inductive MenuType where
  | TextType
  | SeparatorType
  | CheckboxType
  | RadioType
  | SubmenuType
deriving DecidableEq, Repr

/-- Modelled from the spec: `Role` is an opaque predefined-menu-role tag
(its definition is not part of the excerpt); structurally irrelevant. -/
abbrev Role := String

/-- Modelled from the spec: `Accelerator` is an opaque key-binding
descriptor (its definition is not part of the excerpt). -/
abbrev Accelerator := String

/-- The `MenuItem` struct.  `SubMenu` holds the addresses of the children,
`parent` the optional address of the owner (Go `nil` pointer = `none`). -/
structure MenuItem where
  ID : String
  Label : String
  role : Role
  accelerator : Option Accelerator
  type : MenuType
  Disabled : Bool
  Hidden : Bool
  Checked : Bool
  SubMenu : List Addr
  parent : Option Addr
deriving DecidableEq, Repr

/-- The mutable store: every address holds a `MenuItem` value. -/
abbrev Heap := Addr → MenuItem

/-- Writing one node of the store (a Go field assignment writes the whole
updated struct back to its address). -/
def hset (h : Heap) (a : Addr) (v : MenuItem) : Heap :=
  fun b => if b = a then v else h b

/-- `func (m *MenuItem) Parent() *MenuItem { return m.parent }` -/
def Parent (h : Heap) (m : Addr) : Option Addr :=
  (h m).parent

/-- `func (m *MenuItem) isSubMenu() bool { return m.Type == SubmenuType }` -/
def isSubMenu (h : Heap) (m : Addr) : Bool :=
  (h m).type = MenuType.SubmenuType

/-- `func (m *MenuItem) Append(item *MenuItem) bool`: if the receiver is not a
submenu return `false`; otherwise set `item.parent = m`, append `item` to
`m.SubMenu` and return `true`. -/
def Append (h : Heap) (m : Addr) (item : Addr) : Heap × Bool :=
  if ¬ isSubMenu h m then (h, false)
  else
    let h1 := hset h item { h item with parent := some m }
    (hset h1 m { h1 m with SubMenu := (h1 m).SubMenu ++ [item] }, true)

/-- `func (m *MenuItem) Prepend(item *MenuItem) bool`: like `Append` but puts
`item` at the front of `m.SubMenu`. -/
def Prepend (h : Heap) (m : Addr) (item : Addr) : Heap × Bool :=
  if ¬ isSubMenu h m then (h, false)
  else
    let h1 := hset h item { h item with parent := some m }
    (hset h1 m { h1 m with SubMenu := item :: (h1 m).SubMenu }, true)

/-- `func (m *MenuItem) getByID(id string) *MenuItem`: return the receiver if
its `ID` matches, otherwise the first non-nil result of recursing into the
children, left to right.  Fuel bounds the recursion depth. -/
def getByID : Nat → Heap → Addr → String → Option Addr
  | 0, _, _, _ => none
  | fuel + 1, h, m, id =>
    if (h m).ID = id then some m
    else (h m).SubMenu.findSome? (fun sub => getByID fuel h sub id)

mutual

/-- `func (m *MenuItem) removeByID(id string) bool`: scan `m.SubMenu`; a child
whose `ID` matches is spliced out of the slice
(`append(m.SubMenu[:index], m.SubMenu[index+1:]...)`) and `true` returned;
otherwise if the child is a submenu, recurse into it, returning early on
success.  Returns `false` after the loop.  Fuel bounds the recursion depth. -/
def removeByID : Nat → Heap → Addr → String → Heap × Bool
  | 0, h, _, _ => (h, false)
  | fuel + 1, h, m, id => removeLoop fuel h m ((h m).SubMenu) 0 id
termination_by fuel _ _ _ => (fuel, 0)

/-- The body of `removeByID`'s `for index, item := range m.SubMenu` loop: the
slice is the snapshot taken at loop entry, `index` counts from 0 and the
splice re-reads the current `m.SubMenu` as the Go statement does. -/
def removeLoop : Nat → Heap → Addr → List Addr → Nat → String → Heap × Bool
  | _, h, _, [], _, _ => (h, false)
  | fuel, h, m, item :: rest, index, id =>
    if (h item).ID = id then
      (hset h m { h m with
        SubMenu := (h m).SubMenu.take index ++ (h m).SubMenu.drop (index + 1) }, true)
    else if (h item).type = MenuType.SubmenuType then
      match removeByID fuel h item id with
      | (h', true) => (h', true)
      | (h', false) => removeLoop fuel h' m rest (index + 1) id
    else
      removeLoop fuel h m rest (index + 1) id
termination_by fuel _ _ items _ _ => (fuel, items.length + 1)

end

/-- `func (m *MenuItem) getItemIndex(target *MenuItem) int`: identity search
(`item == target` compares pointers) over `m.SubMenu`; the Go `-1` sentinel
becomes `none`. -/
def getItemIndexLoop : List Addr → Addr → Nat → Option Nat
  | [], _, _ => none
  | item :: rest, target, index =>
    if item = target then some index else getItemIndexLoop rest target (index + 1)

def getItemIndex (h : Heap) (m : Addr) (target : Addr) : Option Nat :=
  if ¬ isSubMenu h m then none
  else getItemIndexLoop ((h m).SubMenu) target 0

/-- `func (m *MenuItem) insertItemAtIndex(index int, target *MenuItem) bool`:
fail when `index` exceeds the current length; otherwise set
`target.parent = m` and splice `target` in at `index` (plain append when
`index` equals the length). -/
def insertItemAtIndex (h : Heap) (m : Addr) (index : Nat) (target : Addr) :
    Heap × Bool :=
  if index > (h m).SubMenu.length then (h, false)
  else
    let h1 := hset h target { h target with parent := some m }
    if index = (h1 m).SubMenu.length then
      (hset h1 m { h1 m with SubMenu := (h1 m).SubMenu ++ [target] }, true)
    else
      (hset h1 m { h1 m with
        SubMenu := (h1 m).SubMenu.take index ++ target :: (h1 m).SubMenu.drop index },
       true)

/-- `insertNewItemAfterGivenItem`: locate `target` by identity in the
receiver's submenu and insert `newItem` one slot after it. -/
def insertNewItemAfterGivenItem (h : Heap) (m target newItem : Addr) :
    Heap × Bool :=
  if ¬ isSubMenu h m then (h, false)
  else
    match getItemIndex h m target with
    | none => (h, false)
    | some targetIndex => insertItemAtIndex h m (targetIndex + 1) newItem

/-- `insertNewItemBeforeGivenItem`: locate `target` by identity in the
receiver's submenu and insert `newItem` at its slot. -/
def insertNewItemBeforeGivenItem (h : Heap) (m target newItem : Addr) :
    Heap × Bool :=
  if ¬ isSubMenu h m then (h, false)
  else
    match getItemIndex h m target with
    | none => (h, false)
    | some targetIndex => insertItemAtIndex h m targetIndex newItem

/-- `func (m *MenuItem) InsertAfter(item *MenuItem) bool`: fail on a root,
otherwise delegate to the parent. -/
def InsertAfter (h : Heap) (m : Addr) (item : Addr) : Heap × Bool :=
  match (h m).parent with
  | none => (h, false)
  | some p => insertNewItemAfterGivenItem h p m item

/-- `func (m *MenuItem) InsertBefore(item *MenuItem) bool`: fail on a root,
otherwise delegate to the parent. -/
def InsertBefore (h : Heap) (m : Addr) (item : Addr) : Heap × Bool :=
  match (h m).parent with
  | none => (h, false)
  | some p => insertNewItemBeforeGivenItem h p m item

/-- `func SubMenu(label string, items []*MenuItem) *MenuItem`: allocate a
Submenu node at the fresh address `result` whose `SubMenu` is `items`, then
fix up `item.parent = result` for every supplied item.  Allocation is made
explicit by passing the fresh address. -/
def SubMenu (h : Heap) (result : Addr) (label : String) (items : List Addr) :
    Heap :=
  let h1 := hset h result
    { ID := "", Label := label, role := "", accelerator := none,
      type := MenuType.SubmenuType, Disabled := false, Hidden := false,
      Checked := false, SubMenu := items, parent := none }
  items.foldl (fun hh item => hset hh item { hh item with parent := some result }) h1

/-- `func SubMenuWithID(label string, id string, items []*MenuItem) *MenuItem`:
like `SubMenu` but also sets the `ID` field. -/
def SubMenuWithID (h : Heap) (result : Addr) (label : String) (id : String)
    (items : List Addr) : Heap :=
  let h1 := hset h result
    { ID := id, Label := label, role := "", accelerator := none,
      type := MenuType.SubmenuType, Disabled := false, Hidden := false,
      Checked := false, SubMenu := items, parent := none }
  items.foldl (fun hh item => hset hh item { hh item with parent := some result }) h1

/-! ## Trees of addresses: the language of the spec's invariants

The heap by itself is an untyped pointer graph; the spec's claims are about
*trees* satisfying invariants I1–I3.  A `Tree` is the verifier-side
description of which addresses form a tree and in which arrangement;
`Agrees` states that the heap's `SubMenu` fields realize exactly that
shape. -/

inductive Tree where
  | node (a : Addr) (kids : List Tree)

def Tree.root : Tree → Addr
  | .node a _ => a

def Tree.kids : Tree → List Tree
  | .node _ ks => ks

/-- Roots of a forest: the contents of the owning node's `SubMenu` slice. -/
def rootsOf (ks : List Tree) : List Addr := ks.map Tree.root

mutual

def Tree.size : Tree → Nat
  | .node _ ks => 1 + sizeL ks

def sizeL : List Tree → Nat
  | [] => 0
  | t :: ts => t.size + sizeL ts

end

mutual

/-- Pre-order list of the addresses of a tree. -/
def Tree.addrs : Tree → List Addr
  | .node a ks => a :: addrsL ks

def addrsL : List Tree → List Addr
  | [] => []
  | t :: ts => t.addrs ++ addrsL ts

end

mutual

/-- The heap realizes the tree: every node's `SubMenu` is exactly the list
of roots of its kid trees. -/
def Agrees (h : Heap) : Tree → Prop
  | .node a ks => (h a).SubMenu = rootsOf ks ∧ AgreesL h ks

def AgreesL (h : Heap) : List Tree → Prop
  | [] => True
  | t :: ts => Agrees h t ∧ AgreesL h ts

end

mutual

/-- Invariant I1, edge direction: every child's `parent` field points at the
node whose `SubMenu` contains it. -/
def ParentsOK (h : Heap) : Tree → Prop
  | .node a ks => ParentsOKL h a ks

def ParentsOKL (h : Heap) (a : Addr) : List Tree → Prop
  | [] => True
  | k :: ks => (h k.root).parent = some a ∧ ParentsOK h k ∧ ParentsOKL h a ks

end

mutual

/-- Invariant I3: only a Submenu-kind node has children. -/
def I3T (h : Heap) : Tree → Prop
  | .node a ks => ((h a).type ≠ MenuType.SubmenuType → ks = []) ∧ I3TL h ks

def I3TL (h : Heap) : List Tree → Prop
  | [] => True
  | k :: ks => I3T h k ∧ I3TL h ks

end

/-- The spec's invariants I1–I3 for a tree living in the heap: the heap
realizes the tree, every child's parent pointer is its owner, the root is
parentless, no address occurs twice (exclusive ownership, I2), and only
Submenu nodes have children (I3). -/
def WFT (h : Heap) (t : Tree) : Prop :=
  Agrees h t ∧ ParentsOK h t ∧ (h t.root).parent = none ∧
  t.addrs.Nodup ∧ I3T h t

/-- The claim's reading of I1 over a set `D` of live addresses: a node
contained in no children list is a root and must have `parent = none`, and
a contained node's `parent` is exactly the node whose children list
contains it. -/
def I1set (h : Heap) (D : List Addr) : Prop :=
  (∀ c ∈ D, (∀ p ∈ D, c ∉ (h p).SubMenu) → (h c).parent = none) ∧
  (∀ p ∈ D, ∀ c, c ∈ (h p).SubMenu → (h c).parent = some p)

/-- Spec-side description of removal (the claim's words): delete from a
forest the first node — in pre-order over children, left to right, then
depth, over *all* descendants — whose `ID` matches, closing the gap in its
parent's list; `none` when no descendant matches. -/
def removeT (h : Heap) : List Tree → String → Option (List Tree)
  | [], _ => none
  | Tree.node b bks :: rest, id =>
    if (h b).ID = id then some rest
    else
      match removeT h bks id with
      | some bks' => some (Tree.node b bks' :: rest)
      | none =>
        match removeT h rest id with
        | some rest' => some (Tree.node b bks :: rest')
        | none => none

/-- The heap after splicing index `j` out of the children of `p` — the shape
of the one mutation `removeByID` performs. -/
def spliceOut (h : Heap) (p : Addr) (j : Nat) : Heap :=
  hset h p { h p with SubMenu := (h p).SubMenu.take j ++ (h p).SubMenu.drop (j + 1) }

/-- Insert a tree at position `i` of a forest. -/
def insTree (i : Nat) (tx : Tree) (ks : List Tree) : List Tree :=
  ks.take i ++ tx :: ks.drop i

mutual

/-- Graft `tx` as the `i`-th kid of the (unique) node at address `p`. -/
def graftAt (p : Addr) (i : Nat) (tx : Tree) : Tree → Tree
  | .node a ks =>
    if a = p then .node a (insTree i tx ks) else .node a (graftAtL p i tx ks)

def graftAtL (p : Addr) (i : Nat) (tx : Tree) : List Tree → List Tree
  | [] => []
  | k :: ks => graftAt p i tx k :: graftAtL p i tx ks

end

/-! ## Concrete nodes and heaps used by the witnesses -/

/-- A zero-value `MenuItem` (all Go zero values). -/
def blank : MenuItem :=
  { ID := "", Label := "", role := "", accelerator := none,
    type := MenuType.TextType, Disabled := false, Hidden := false,
    Checked := false, SubMenu := [], parent := none }

/-- The spec's scenario tree: `A(Submenu) → [B(Text "b1"), C(Submenu) → [D(Text "d1")]]`
at addresses 0–3, plus a detached item `E` at address 4. -/
def hW : Heap := fun a =>
  if a = 0 then { blank with ID := "a", type := MenuType.SubmenuType, SubMenu := [1, 2] }
  else if a = 1 then { blank with ID := "b1", parent := some 0 }
  else if a = 2 then { blank with ID := "c", type := MenuType.SubmenuType, SubMenu := [3], parent := some 0 }
  else if a = 3 then { blank with ID := "d1", parent := some 2 }
  else if a = 4 then { blank with ID := "e" }
  else blank

/-- Tree description of the reachable part of `hW`. -/
def tW : Tree := .node 0 [.node 1 [], .node 2 [.node 3 []]]

/-- The detached single item `E` of `hW` as a (one-node) tree. -/
def tE : Tree := .node 4 []

/-- A heap violating I3 by direct field assignment: address 1 is a Text
node whose `SubMenu` nevertheless holds the node with id `"s"`. -/
def hX : Heap := fun a =>
  if a = 0 then { blank with ID := "root", type := MenuType.SubmenuType, SubMenu := [1] }
  else if a = 1 then { blank with ID := "b", SubMenu := [2], parent := some 0 }
  else if a = 2 then { blank with ID := "s", parent := some 1 }
  else blank

/-! ## Basic heap lemmas -/

theorem hset_same (h : Heap) (a : Addr) (v : MenuItem) : hset h a v a = v := by
  simp [hset]

theorem hset_other (h : Heap) (a : Addr) (v : MenuItem) (b : Addr) (hb : b ≠ a) :
    hset h a v b = h b := by
  simp [hset, hb]

/-! ## C5, C6: Append and Prepend -/

/-- **C5.** For every node `m` of Submenu kind and every item `x`,
`m.Append(x)` returns `true`, sets `x`'s parent to `m`, appends `x` as the
last element of `m`'s children leaving the previous children in order, and
touches no other node; for every node `m` not of Submenu kind, `m.Append(x)`
returns `false` and leaves the whole heap (in particular `m` and `x`)
unmodified. -/
theorem Append_spec (h : Heap) (m x : Addr) :
    ((h m).type = MenuType.SubmenuType →
      (Append h m x).2 = true ∧
      ((Append h m x).1 x).parent = some m ∧
      ((Append h m x).1 m).SubMenu = (h m).SubMenu ++ [x] ∧
      ∀ b, b ≠ m → b ≠ x → (Append h m x).1 b = h b) ∧
    ((h m).type ≠ MenuType.SubmenuType → Append h m x = (h, false)) := by
  constructor
  · intro ht
    refine ⟨by simp [Append, isSubMenu, ht], ?_, ?_, ?_⟩
    · by_cases hxm : x = m
      · subst hxm
        simp [Append, isSubMenu, ht, hset]
      · simp [Append, isSubMenu, ht, hset, hxm]
    · by_cases hxm : x = m
      · subst hxm
        simp [Append, isSubMenu, ht, hset]
      · simp [Append, isSubMenu, ht, hset, Ne.symm hxm]
    · intro b hbm hbx
      simp [Append, isSubMenu, ht, hset, hbm, hbx]
  · intro ht
    simp [Append, isSubMenu, ht]

theorem Append_spec_witness :
    ((hW 0).type = MenuType.SubmenuType ∧
      (Append hW 0 4).2 = true ∧
      ((Append hW 0 4).1 4).parent = some 0 ∧
      ((Append hW 0 4).1 0).SubMenu = [1, 2, 4]) ∧
    ((hW 1).type ≠ MenuType.SubmenuType ∧ Append hW 1 4 = (hW, false)) := by
  refine ⟨⟨rfl, ?_, ?_, ?_⟩, by decide, ?_⟩
  · exact ((Append_spec hW 0 4).1 rfl).1
  · exact ((Append_spec hW 0 4).1 rfl).2.1
  · exact ((Append_spec hW 0 4).1 rfl).2.2.1
  · exact (Append_spec hW 1 4).2 (by decide)

/-- **C6.** For every node `m` of Submenu kind and every item `x`,
`m.Prepend(x)` returns `true`, sets `x`'s parent to `m`, inserts `x` as the
first element of `m`'s children keeping the relative order of the previous
children, and touches no other node; for every node `m` not of Submenu kind,
`m.Prepend(x)` returns `false` and leaves the whole heap unmodified. -/
theorem Prepend_spec (h : Heap) (m x : Addr) :
    ((h m).type = MenuType.SubmenuType →
      (Prepend h m x).2 = true ∧
      ((Prepend h m x).1 x).parent = some m ∧
      ((Prepend h m x).1 m).SubMenu = x :: (h m).SubMenu ∧
      ∀ b, b ≠ m → b ≠ x → (Prepend h m x).1 b = h b) ∧
    ((h m).type ≠ MenuType.SubmenuType → Prepend h m x = (h, false)) := by
  constructor
  · intro ht
    refine ⟨by simp [Prepend, isSubMenu, ht], ?_, ?_, ?_⟩
    · by_cases hxm : x = m
      · subst hxm
        simp [Prepend, isSubMenu, ht, hset]
      · simp [Prepend, isSubMenu, ht, hset, hxm]
    · by_cases hxm : x = m
      · subst hxm
        simp [Prepend, isSubMenu, ht, hset]
      · simp [Prepend, isSubMenu, ht, hset, Ne.symm hxm]
    · intro b hbm hbx
      simp [Prepend, isSubMenu, ht, hset, hbm, hbx]
  · intro ht
    simp [Prepend, isSubMenu, ht]

theorem Prepend_spec_witness :
    ((hW 0).type = MenuType.SubmenuType ∧
      (Prepend hW 0 4).2 = true ∧
      ((Prepend hW 0 4).1 4).parent = some 0 ∧
      ((Prepend hW 0 4).1 0).SubMenu = [4, 1, 2]) ∧
    ((hW 3).type ≠ MenuType.SubmenuType ∧ Prepend hW 3 4 = (hW, false)) := by
  refine ⟨⟨rfl, ?_, ?_, ?_⟩, by decide, ?_⟩
  · exact ((Prepend_spec hW 0 4).1 rfl).1
  · exact ((Prepend_spec hW 0 4).1 rfl).2.1
  · exact ((Prepend_spec hW 0 4).1 rfl).2.2.1
  · exact (Prepend_spec hW 3 4).2 (by decide)

/-! ## C9: bounds policy of the internal insert-at-index operation -/

/-- **C9.** For every Submenu node `m` with `n` children, `insertItemAtIndex`
with index `n` appends the item at the end (setting its parent) and returns
`true`; with any index strictly greater than `n` it returns `false` and the
heap — in particular `m`'s children list and the item's parent field — is
completely unchanged. -/
theorem insertItemAtIndex_bounds (h : Heap) (m x : Addr)
    (hsub : (h m).type = MenuType.SubmenuType) :
    ((insertItemAtIndex h m ((h m).SubMenu.length) x).2 = true ∧
      ((insertItemAtIndex h m ((h m).SubMenu.length) x).1 m).SubMenu
        = (h m).SubMenu ++ [x] ∧
      ((insertItemAtIndex h m ((h m).SubMenu.length) x).1 x).parent = some m) ∧
    ∀ k, (h m).SubMenu.length < k → insertItemAtIndex h m k x = (h, false) := by
  constructor
  · by_cases hxm : x = m
    · subst hxm
      refine ⟨?_, ?_, ?_⟩ <;> simp [insertItemAtIndex, hset]
    · refine ⟨?_, ?_, ?_⟩ <;> simp [insertItemAtIndex, hset, hxm, Ne.symm hxm]
  · intro k hk
    simp [insertItemAtIndex, hk, Nat.not_le_of_lt hk]

theorem insertItemAtIndex_bounds_witness :
    (hW 2).type = MenuType.SubmenuType ∧
    ((insertItemAtIndex hW 2 1 4).2 = true ∧
      ((insertItemAtIndex hW 2 1 4).1 2).SubMenu = [3, 4] ∧
      ((insertItemAtIndex hW 2 1 4).1 4).parent = some 2) ∧
    insertItemAtIndex hW 2 2 4 = (hW, false) := by
  have hlen : (hW 2).SubMenu.length = 1 := rfl
  refine ⟨rfl, ?_, ?_⟩
  · have := (insertItemAtIndex_bounds hW 2 4 rfl).1
    rw [hlen] at this
    exact this
  · have := (insertItemAtIndex_bounds hW 2 4 rfl).2 2 (by rw [hlen]; omega)
    exact this

/-! ## C3, C4: InsertAfter and InsertBefore -/

/-- `getItemIndexLoop` only returns indices of elements of the list
(relative to the running index it was started with). -/
theorem getItemIndexLoop_lt (l : List Addr) (t : Addr) (k i : Nat)
    (hfind : getItemIndexLoop l t k = some i) : k ≤ i ∧ i < k + l.length := by
  induction l generalizing k with
  | nil => simp [getItemIndexLoop] at hfind
  | cons a rest ih =>
    by_cases hat : a = t
    · simp [getItemIndexLoop, hat] at hfind
      simp only [List.length_cons]
      omega
    · simp only [getItemIndexLoop, if_neg hat] at hfind
      have := ih (k + 1) hfind
      simp only [List.length_cons]
      omega

/-- Successful in-bounds insertion: `insertItemAtIndex` sets the item's
parent, splices it in at the requested index and touches nothing else. -/
theorem insertItemAtIndex_insert (h : Heap) (m x : Addr) (i : Nat)
    (hle : i ≤ (h m).SubMenu.length) :
    (insertItemAtIndex h m i x).2 = true ∧
    ((insertItemAtIndex h m i x).1 x).parent = some m ∧
    ((insertItemAtIndex h m i x).1 m).SubMenu
      = (h m).SubMenu.take i ++ x :: (h m).SubMenu.drop i ∧
    ∀ b, b ≠ m → b ≠ x → (insertItemAtIndex h m i x).1 b = h b := by
  have hnot : ¬ i > (h m).SubMenu.length := not_lt.mpr hle
  by_cases hil : i = (h m).SubMenu.length
  · subst hil
    by_cases hxm : x = m
    · subst hxm
      refine ⟨?_, ?_, ?_, ?_⟩ <;>
        simp [insertItemAtIndex, hset, List.take_length, List.drop_length]
      intro b hbm
      simp [hbm]
    · refine ⟨?_, ?_, ?_, ?_⟩ <;>
        simp [insertItemAtIndex, hset, hxm, Ne.symm hxm, List.take_length,
          List.drop_length]
      intro b hbm hbx
      simp [hbm, hbx]
  · by_cases hxm : x = m
    · subst hxm
      refine ⟨?_, ?_, ?_, ?_⟩ <;> simp [insertItemAtIndex, hset, hnot, hil]
      intro b hbm
      simp [hbm]
    · refine ⟨?_, ?_, ?_, ?_⟩ <;>
        simp [insertItemAtIndex, hset, hnot, hil, hxm, Ne.symm hxm]
      intro b hbm hbx
      simp [hbm, hbx]

/-- **C3.** For every node `t` with `t.parent = some p` where `p` is of
Submenu kind and the identity search finds `t` at index `i` of `p`'s
children, `t.InsertAfter(x)` returns `true`, sets `x.parent = p`, places `x`
at index `i+1` of `p`'s children keeping all original siblings in relative
order, and touches no other node; for every root node `t` (parent `none`),
`t.InsertAfter(x)` returns `false` and mutates nothing. -/
theorem InsertAfter_spec (h : Heap) (t x : Addr) :
    ((h t).parent = none → InsertAfter h t x = (h, false)) ∧
    ∀ p i, (h t).parent = some p → (h p).type = MenuType.SubmenuType →
      getItemIndexLoop ((h p).SubMenu) t 0 = some i →
      (InsertAfter h t x).2 = true ∧
      ((InsertAfter h t x).1 x).parent = some p ∧
      ((InsertAfter h t x).1 p).SubMenu
        = (h p).SubMenu.take (i + 1) ++ x :: (h p).SubMenu.drop (i + 1) ∧
      ∀ b, b ≠ p → b ≠ x → (InsertAfter h t x).1 b = h b := by
  constructor
  · intro hroot
    simp [InsertAfter, hroot]
  · intro p i hp hsub hfind
    have hi : i < (h p).SubMenu.length := by
      have := getItemIndexLoop_lt ((h p).SubMenu) t 0 i hfind
      omega
    have hstep : InsertAfter h t x = insertItemAtIndex h p (i + 1) x := by
      simp [InsertAfter, hp, insertNewItemAfterGivenItem, isSubMenu, hsub,
        getItemIndex, hfind]
    rw [hstep]
    exact insertItemAtIndex_insert h p x (i + 1) (by omega)

theorem InsertAfter_spec_witness :
    (InsertAfter hW 0 4 = (hW, false)) ∧
    ((hW 1).parent = some 0 ∧ (hW 0).type = MenuType.SubmenuType ∧
      getItemIndexLoop ((hW 0).SubMenu) 1 0 = some 0 ∧
      (InsertAfter hW 1 4).2 = true ∧
      ((InsertAfter hW 1 4).1 4).parent = some 0 ∧
      ((InsertAfter hW 1 4).1 0).SubMenu = [1, 4, 2]) := by
  have hs := (InsertAfter_spec hW 1 4).2 0 0 rfl rfl rfl
  exact ⟨(InsertAfter_spec hW 0 4).1 rfl,
    rfl, rfl, rfl, hs.1, hs.2.1, hs.2.2.1⟩

/-- **C4.** For every node `t` with `t.parent = some p` where `p` is of
Submenu kind and the identity search finds `t` at index `i` of `p`'s
children, `t.InsertBefore(x)` returns `true`, sets `x.parent = p`, places
`x` at index `i` of `p`'s children shifting `t` and all later siblings one
position to the right, and touches no other node; for every root node `t`,
`t.InsertBefore(x)` returns `false` and mutates nothing. -/
theorem InsertBefore_spec (h : Heap) (t x : Addr) :
    ((h t).parent = none → InsertBefore h t x = (h, false)) ∧
    ∀ p i, (h t).parent = some p → (h p).type = MenuType.SubmenuType →
      getItemIndexLoop ((h p).SubMenu) t 0 = some i →
      (InsertBefore h t x).2 = true ∧
      ((InsertBefore h t x).1 x).parent = some p ∧
      ((InsertBefore h t x).1 p).SubMenu
        = (h p).SubMenu.take i ++ x :: (h p).SubMenu.drop i ∧
      ∀ b, b ≠ p → b ≠ x → (InsertBefore h t x).1 b = h b := by
  constructor
  · intro hroot
    simp [InsertBefore, hroot]
  · intro p i hp hsub hfind
    have hi : i < (h p).SubMenu.length := by
      have := getItemIndexLoop_lt ((h p).SubMenu) t 0 i hfind
      omega
    have hstep : InsertBefore h t x = insertItemAtIndex h p i x := by
      simp [InsertBefore, hp, insertNewItemBeforeGivenItem, isSubMenu, hsub,
        getItemIndex, hfind]
    rw [hstep]
    exact insertItemAtIndex_insert h p x i (by omega)

theorem InsertBefore_spec_witness :
    (InsertBefore hW 0 4 = (hW, false)) ∧
    ((hW 1).parent = some 0 ∧ (hW 0).type = MenuType.SubmenuType ∧
      getItemIndexLoop ((hW 0).SubMenu) 1 0 = some 0 ∧
      (InsertBefore hW 1 4).2 = true ∧
      ((InsertBefore hW 1 4).1 4).parent = some 0 ∧
      ((InsertBefore hW 1 4).1 0).SubMenu = [4, 1, 2]) := by
  have hs := (InsertBefore_spec hW 1 4).2 0 0 rfl rfl rfl
  exact ⟨(InsertBefore_spec hW 0 4).1 rfl,
    rfl, rfl, rfl, hs.1, hs.2.1, hs.2.2.1⟩

/-! ## C8: constructor parent fix-up -/

/-- The cumulative effect of the constructors' parent fix-up loop. -/
theorem foldl_setParent (result : Addr) (l : List Addr) (h0 : Heap) (b : Addr) :
    (l.foldl (fun hh item => hset hh item { hh item with parent := some result }) h0) b
      = if b ∈ l then { h0 b with parent := some result } else h0 b := by
  induction l generalizing h0 with
  | nil => simp
  | cons a l ih =>
    simp only [List.foldl_cons]
    rw [ih]
    by_cases hba : b = a
    · subst hba
      by_cases hbl : b ∈ l <;> simp [hbl, hset]
    · by_cases hbl : b ∈ l <;> simp [hbl, hset, hba, List.mem_cons]

/-- **C8.** For every label, id, fresh address and list of pre-built items,
`SubMenu(label, items)` and `SubMenuWithID(label, id, items)` produce a node
of Submenu kind whose children list is exactly the supplied items in order,
and every supplied item's parent is the newly created node — no separate
fix-up call needed. -/
theorem SubMenu_ctor_spec (h : Heap) (result : Addr) (label id : String)
    (items : List Addr) (hfresh : result ∉ items) :
    ((SubMenu h result label items) result).type = MenuType.SubmenuType ∧
    ((SubMenu h result label items) result).SubMenu = items ∧
    ((SubMenu h result label items) result).Label = label ∧
    (∀ it ∈ items, ((SubMenu h result label items) it).parent = some result) ∧
    ((SubMenuWithID h result label id items) result).type = MenuType.SubmenuType ∧
    ((SubMenuWithID h result label id items) result).SubMenu = items ∧
    ((SubMenuWithID h result label id items) result).Label = label ∧
    ((SubMenuWithID h result label id items) result).ID = id ∧
    ∀ it ∈ items, ((SubMenuWithID h result label id items) it).parent = some result := by
  refine ⟨?_, ?_, ?_, ?_, ?_, ?_, ?_, ?_, ?_⟩ <;>
    simp only [SubMenu, SubMenuWithID, foldl_setParent, hfresh, if_neg, if_false,
      hset_same] <;>
    first
      | rfl
      | (intro it hit
         simp [hit])

theorem SubMenu_ctor_spec_witness :
    (5 ∉ [1, 2] ∧
      ((SubMenu hW 5 "lbl" [1, 2]) 5).type = MenuType.SubmenuType ∧
      ((SubMenu hW 5 "lbl" [1, 2]) 5).SubMenu = [1, 2] ∧
      ((SubMenu hW 5 "lbl" [1, 2]) 1).parent = some 5) ∧
    (((SubMenuWithID hW 5 "lbl" "sid" [1, 2]) 5).ID = "sid" ∧
      ((SubMenuWithID hW 5 "lbl" "sid" [1, 2]) 2).parent = some 5) := by
  have hs := SubMenu_ctor_spec hW 5 "lbl" "sid" [1, 2] (by decide)
  exact ⟨⟨by decide, hs.1, hs.2.1, hs.2.2.2.1 1 (by decide)⟩,
    hs.2.2.2.2.2.2.2.1, hs.2.2.2.2.2.2.2.2 2 (by decide)⟩

/-! ## Induction principles and basic facts about address trees -/

theorem Tree.indPair (P : Tree → Prop) (Q : List Tree → Prop)
    (hnode : ∀ a ks, Q ks → P (Tree.node a ks))
    (hnil : Q [])
    (hcons : ∀ t ts, P t → Q ts → Q (t :: ts)) :
    ∀ t, P t :=
  fun t => @Tree.rec P Q hnode hnil hcons t

theorem Tree.ind (P : Tree → Prop)
    (hnode : ∀ a ks, (∀ k ∈ ks, P k) → P (Tree.node a ks)) :
    ∀ t, P t := by
  refine Tree.indPair P (fun ks => ∀ k ∈ ks, P k) hnode ?_ ?_
  · intro k hk
    exact absurd hk (List.not_mem_nil k)
  · intro t ts hp hq k hk
    rcases List.mem_cons.mp hk with h1 | h2
    · exact h1 ▸ hp
    · exact hq k h2

theorem AgreesL_iff (h : Heap) (ks : List Tree) :
    AgreesL h ks ↔ ∀ k ∈ ks, Agrees h k := by
  induction ks with
  | nil => simp [AgreesL]
  | cons t ts ih => simp [AgreesL, ih]

theorem ParentsOKL_iff (h : Heap) (a : Addr) (ks : List Tree) :
    ParentsOKL h a ks ↔
      ∀ k ∈ ks, (h k.root).parent = some a ∧ ParentsOK h k := by
  induction ks with
  | nil => simp [ParentsOKL]
  | cons t ts ih => simp [ParentsOKL, ih, and_assoc]

theorem I3TL_iff (h : Heap) (ks : List Tree) :
    I3TL h ks ↔ ∀ k ∈ ks, I3T h k := by
  induction ks with
  | nil => simp [I3TL]
  | cons t ts ih => simp [I3TL, ih]

theorem addrsL_append (l1 l2 : List Tree) :
    addrsL (l1 ++ l2) = addrsL l1 ++ addrsL l2 := by
  induction l1 with
  | nil => simp [addrsL]
  | cons t ts ih => simp [addrsL, ih]

theorem root_mem_addrs (t : Tree) : t.root ∈ t.addrs := by
  cases t with
  | node a ks => simp [Tree.root, Tree.addrs]

theorem addrs_sub_of_mem (k : Tree) (ks : List Tree) (hk : k ∈ ks) :
    ∀ b ∈ k.addrs, b ∈ addrsL ks := by
  induction ks with
  | nil => exact absurd hk (List.not_mem_nil k)
  | cons t ts ih =>
    intro b hb
    rcases List.mem_cons.mp hk with h1 | h2
    · subst h1
      simp [addrsL, hb]
    · simp only [addrsL, List.mem_append]
      exact Or.inr (ih h2 b hb)

theorem rootsOf_sub_addrsL (ks : List Tree) : ∀ b ∈ rootsOf ks, b ∈ addrsL ks := by
  intro b hb
  rcases List.mem_map.mp hb with ⟨k, hk, hroot⟩
  exact addrs_sub_of_mem k ks hk b (hroot ▸ root_mem_addrs k)

theorem size_le_sizeL (k : Tree) (ks : List Tree) (hk : k ∈ ks) :
    k.size ≤ sizeL ks := by
  induction ks with
  | nil => exact absurd hk (List.not_mem_nil k)
  | cons t ts ih =>
    rcases List.mem_cons.mp hk with h1 | h2
    · subst h1
      simp [sizeL]
    · have := ih h2
      simp only [sizeL]
      omega

theorem sizeL_tail_le (t : Tree) (ts : List Tree) : sizeL ts ≤ sizeL (t :: ts) := by
  simp only [sizeL]
  omega

theorem Agrees_congr (h h' : Heap) : ∀ t : Tree,
    (∀ b ∈ t.addrs, (h' b).SubMenu = (h b).SubMenu) →
    Agrees h t → Agrees h' t := by
  intro t
  induction t using Tree.ind with
  | hnode a ks ih =>
    intro hsame hag
    simp only [Agrees] at hag ⊢
    obtain ⟨h1, h2⟩ := hag
    refine ⟨?_, ?_⟩
    · rw [hsame a (by simp [Tree.addrs])]
      exact h1
    · rw [AgreesL_iff] at h2 ⊢
      intro k hk
      refine ih k hk ?_ (h2 k hk)
      intro b hb
      refine hsame b ?_
      simp only [Tree.addrs, List.mem_cons]
      exact Or.inr (addrs_sub_of_mem k ks hk b hb)

theorem addrsL_kids_sub (k : Tree) : ∀ b ∈ addrsL k.kids, b ∈ k.addrs := by
  cases k with
  | node a ks =>
    intro b hb
    simp only [Tree.kids] at hb
    simp only [Tree.addrs, List.mem_cons]
    exact Or.inr hb

/-- `ParentsOK` only reads the `parent` field of non-root addresses of the
tree. -/
theorem ParentsOK_congr (h h' : Heap) : ∀ t : Tree,
    (∀ b ∈ addrsL t.kids, (h' b).parent = (h b).parent) →
    ParentsOK h t → ParentsOK h' t := by
  intro t
  induction t using Tree.ind with
  | hnode a ks ih =>
    intro hsame hpo
    simp only [Tree.kids] at hsame
    simp only [ParentsOK] at hpo ⊢
    rw [ParentsOKL_iff] at hpo ⊢
    intro k hk
    have hsub : ∀ b ∈ k.addrs, b ∈ addrsL ks := fun b hb =>
      addrs_sub_of_mem k ks hk b hb
    refine ⟨?_, ?_⟩
    · rw [hsame k.root (hsub k.root (root_mem_addrs k))]
      exact (hpo k hk).1
    · refine ih k hk ?_ (hpo k hk).2
      intro b hb
      exact hsame b (hsub b (addrsL_kids_sub k b hb))

/-! ## C7: getByID is pre-order first-match search -/

theorem find?_of_filter_eq_singleton {α : Type} (p : α → Bool) (l : List α)
    (d : α) (hf : l.filter p = [d]) : l.find? p = some d := by
  induction l with
  | nil => simp at hf
  | cons x xs ih =>
    by_cases hx : p x
    · rw [List.filter_cons_of_pos hx] at hf
      rw [List.find?_cons_of_pos _ hx]
      injection hf with h1 _
      rw [h1]
    · rw [List.filter_cons_of_neg (by simp [hx])] at hf
      rw [List.find?_cons_of_neg _ (by simp [hx])]
      exact ih hf

/-- `getByID` computes `find?` over the pre-order address list of the tree
the heap realizes. -/
theorem getByID_eq_find (h : Heap) (id : String) : ∀ t : Tree, ∀ fuel,
    Agrees h t → t.size ≤ fuel →
    getByID fuel h t.root id = (t.addrs).find? (fun b => (h b).ID == id) := by
  refine Tree.indPair
    (fun t => ∀ fuel, Agrees h t → t.size ≤ fuel →
      getByID fuel h t.root id = (t.addrs).find? (fun b => (h b).ID == id))
    (fun ks => ∀ fuel, AgreesL h ks → sizeL ks ≤ fuel →
      (rootsOf ks).findSome? (fun sub => getByID fuel h sub id)
        = (addrsL ks).find? (fun b => (h b).ID == id)) ?_ ?_ ?_
  · intro a ks ihq fuel hag hfuel
    cases fuel with
    | zero =>
      exfalso
      simp only [Tree.size] at hfuel
      omega
    | succ fuel =>
      simp only [Agrees] at hag
      simp only [getByID, Tree.root, Tree.addrs]
      rw [hag.1]
      by_cases hid : (h a).ID = id
      · rw [if_pos hid, List.find?_cons_of_pos _ (by simp [hid])]
      · rw [if_neg hid, List.find?_cons_of_neg _ (by simp [hid])]
        refine ihq fuel hag.2 ?_
        simp only [Tree.size] at hfuel
        omega
  · intro fuel _ _
    simp [rootsOf, addrsL]
  · intro t ts ihp ihq fuel hag hfuel
    simp only [AgreesL] at hag
    have hsz : t.size ≤ fuel := by
      have := sizeL_tail_le t ts
      simp only [sizeL] at hfuel
      omega
    have hszl : sizeL ts ≤ fuel := by
      simp only [sizeL] at hfuel
      omega
    simp only [rootsOf, List.map_cons, List.findSome?_cons, addrsL]
    rw [ihp fuel hag.1 hsz, List.find?_append]
    cases hf : (t.addrs).find? (fun b => (h b).ID == id) with
    | some v => simp
    | none =>
      simp only [Option.or_none, Option.none_or]
      exact ihq fuel hag.2 hszl

/-- **C7.** `getByID` visits the receiver first and then its children
recursively left to right (pre-order), returning the first node whose id
matches: it equals `find?` over the pre-order address list; on a tree
containing exactly one node with the id it returns that node, and on a tree
containing none it returns `none`.  (It is a pure query: the embedding
returns no heap, so nothing is mutated.) -/
theorem getByID_spec (h : Heap) (t : Tree) (id : String) (fuel : Nat)
    (hag : Agrees h t) (hfuel : t.size ≤ fuel) :
    getByID fuel h t.root id = (t.addrs).find? (fun b => (h b).ID == id) ∧
    (∀ d, (t.addrs).filter (fun b => (h b).ID == id) = [d] →
        getByID fuel h t.root id = some d) ∧
    ((∀ b ∈ t.addrs, (h b).ID ≠ id) → getByID fuel h t.root id = none) := by
  have heq := getByID_eq_find h id t fuel hag hfuel
  refine ⟨heq, ?_, ?_⟩
  · intro d hd
    rw [heq]
    exact find?_of_filter_eq_singleton _ _ d hd
  · intro hnone
    rw [heq, List.find?_eq_none]
    intro x hx
    simp [hnone x hx]

theorem getByID_spec_witness :
    Agrees hW tW ∧ tW.size ≤ 4 ∧
    getByID 4 hW 0 "d1" = some 3 ∧ getByID 4 hW 0 "zz" = none := by
  have hag : Agrees hW tW := by
    simp [Agrees, AgreesL, tW, hW, rootsOf, Tree.root, blank]
  have hsz : tW.size ≤ 4 := by
    simp [tW, Tree.size, sizeL]
  refine ⟨hag, hsz, ?_, ?_⟩
  · exact (getByID_spec hW tW "d1" 4 hag hsz).2.1 3 (by decide)
  · exact (getByID_spec hW tW "zz" 4 hag hsz).2.2 (by decide)

/-! ## Forest induction and splice lemmas -/

/-- Induction over forests following the recursion shape of `removeT` and
of `removeByID`'s loop: the head's kid list and the tail are both smaller. -/
theorem forest_ind (R : List Tree → Prop)
    (hnil : R [])
    (hcons : ∀ b bks rest, R bks → R rest → R (Tree.node b bks :: rest)) :
    ∀ ks, R ks := by
  have key : ∀ n ks, sizeL ks ≤ n → R ks := by
    intro n
    induction n with
    | zero =>
      intro ks hks
      cases ks with
      | nil => exact hnil
      | cons t ts =>
        cases t with
        | node b bks =>
          exfalso
          simp only [sizeL, Tree.size] at hks
          omega
    | succ n ih =>
      intro ks hks
      cases ks with
      | nil => exact hnil
      | cons t ts =>
        cases t with
        | node b bks =>
          simp only [sizeL, Tree.size] at hks
          exact hcons b bks ts (ih bks (by omega)) (ih ts (by omega))
  exact fun ks => key (sizeL ks) ks le_rfl

/-- Deleting the element right after a prefix of known length. -/
theorem splice_middle {α : Type} (pre l2 : List α) (b : α) :
    (pre ++ b :: l2).take pre.length ++ (pre ++ b :: l2).drop (pre.length + 1)
      = pre ++ l2 := by
  induction pre with
  | nil => simp
  | cons p ps ih =>
    simp only [List.cons_append, List.length_cons, List.take_succ_cons,
      List.drop_succ_cons]
    rw [ih]

theorem spliceOut_other (h : Heap) (p : Addr) (j : Nat) (b : Addr) (hb : b ≠ p) :
    spliceOut h p j b = h b := by
  simp [spliceOut, hset, hb]

theorem spliceOut_parent (h : Heap) (p : Addr) (j : Nat) (b : Addr) :
    (spliceOut h p j b).parent = (h b).parent := by
  by_cases hb : b = p
  · subst hb
    simp [spliceOut, hset]
  · simp [spliceOut, hset, hb]

theorem spliceOut_self_SubMenu (h : Heap) (p : Addr) (j : Nat) :
    (spliceOut h p j p).SubMenu
      = (h p).SubMenu.take j ++ (h p).SubMenu.drop (j + 1) := by
  simp [spliceOut, hset]

/-! ## Pure facts about the spec-side removal `removeT` -/

/-- `removeT` fails exactly when no descendant carries the id. -/
theorem removeT_none_iff (h : Heap) (id : String) : ∀ ks,
    (removeT h ks id = none ↔ ∀ b ∈ addrsL ks, (h b).ID ≠ id) := by
  refine forest_ind _ ?_ ?_
  · simp [removeT, addrsL]
  · intro b bks rest ihb ihr
    constructor
    · intro hnone b' hb'
      by_cases hid : (h b).ID = id
      · rw [removeT, if_pos hid] at hnone
        exact absurd hnone (by simp)
      · rw [removeT, if_neg hid] at hnone
        cases hbk : removeT h bks id with
        | some l =>
          rw [hbk] at hnone
          exact absurd hnone (by simp)
        | none =>
          rw [hbk] at hnone
          cases hrs : removeT h rest id with
          | some l =>
            rw [hrs] at hnone
            exact absurd hnone (by simp)
          | none =>
            simp only [addrsL, Tree.addrs, List.cons_append, List.mem_cons,
              List.mem_append] at hb'
            rcases hb' with h1 | h2 | h3
            · subst h1
              exact hid
            · exact (ihb.mp hbk) b' h2
            · exact (ihr.mp hrs) b' h3
    · intro hall
      have hid : (h b).ID ≠ id := by
        refine hall b ?_
        simp [addrsL, Tree.addrs]
      have hbk : removeT h bks id = none := by
        refine ihb.mpr ?_
        intro b' hb'
        refine hall b' ?_
        simp only [addrsL, Tree.addrs, List.cons_append, List.mem_cons,
          List.mem_append]
        exact Or.inr (Or.inl hb')
      have hrs : removeT h rest id = none := by
        refine ihr.mpr ?_
        intro b' hb'
        refine hall b' ?_
        simp only [addrsL, Tree.addrs, List.cons_append, List.mem_cons,
          List.mem_append]
        exact Or.inr (Or.inr hb')
      rw [removeT, if_neg hid, hbk, hrs]

/-- `removeT` preserves the parent-edge invariant of the surviving nodes. -/
theorem removeT_parentsOK (h : Heap) (id : String) : ∀ ks, ∀ ks' a,
    removeT h ks id = some ks' → ParentsOKL h a ks → ParentsOKL h a ks' := by
  refine forest_ind (fun ks => ∀ ks' a,
    removeT h ks id = some ks' → ParentsOKL h a ks → ParentsOKL h a ks') ?_ ?_
  · intro ks' a hsome
    rw [removeT] at hsome
    exact absurd hsome (by simp)
  · intro b bks rest ihb ihr ks' a hsome hpo
    simp only [ParentsOKL, Tree.root] at hpo
    obtain ⟨hpb, hpkb, hptail⟩ := hpo
    by_cases hid : (h b).ID = id
    · rw [removeT, if_pos hid] at hsome
      injection hsome with h1
      exact h1 ▸ hptail
    · rw [removeT, if_neg hid] at hsome
      cases hbk : removeT h bks id with
      | some bks' =>
        rw [hbk] at hsome
        injection hsome with h1
        subst h1
        simp only [ParentsOKL, Tree.root]
        refine ⟨hpb, ?_, hptail⟩
        simp only [ParentsOK] at hpkb ⊢
        exact ihb bks' b hbk hpkb
      | none =>
        rw [hbk] at hsome
        cases hrs : removeT h rest id with
        | some rest' =>
          rw [hrs] at hsome
          injection hsome with h1
          subst h1
          simp only [ParentsOKL, Tree.root]
          exact ⟨hpb, hpkb, ihr rest' a hrs hptail⟩
        | none =>
          rw [hrs] at hsome
          exact absurd hsome (by simp)

/-- The surviving pre-order addresses form a sublist of the original ones. -/
theorem removeT_addrs_sublist (h : Heap) (id : String) : ∀ ks, ∀ ks',
    removeT h ks id = some ks' → (addrsL ks').Sublist (addrsL ks) := by
  refine forest_ind (fun ks => ∀ ks',
    removeT h ks id = some ks' → (addrsL ks').Sublist (addrsL ks)) ?_ ?_
  · intro ks' hsome
    rw [removeT] at hsome
    exact absurd hsome (by simp)
  · intro b bks rest ihb ihr ks' hsome
    by_cases hid : (h b).ID = id
    · rw [removeT, if_pos hid] at hsome
      injection hsome with h1
      subst h1
      simp only [addrsL, Tree.addrs]
      exact List.sublist_append_right _ _
    · rw [removeT, if_neg hid] at hsome
      cases hbk : removeT h bks id with
      | some bks' =>
        rw [hbk] at hsome
        injection hsome with h1
        subst h1
        simp only [addrsL, Tree.addrs]
        exact List.Sublist.append_right ((ihb bks' hbk).cons₂ b) _
      | none =>
        rw [hbk] at hsome
        cases hrs : removeT h rest id with
        | some rest' =>
          rw [hrs] at hsome
          injection hsome with h1
          subst h1
          simp only [addrsL, Tree.addrs]
          exact List.Sublist.append_left (ihr rest' hrs) _
        | none =>
          rw [hrs] at hsome
          exact absurd hsome (by simp)

/-! ## Simulation of removeByID against the spec-side removeT -/

/-- Scanning the realization of a forest `ks` that sits after a prefix
`pre` inside `m.SubMenu`, `removeByID`'s loop fails leaving the heap
untouched exactly when `removeT` fails; otherwise it performs exactly the
one splice `removeT` prescribes, at an address inside the scanned forest or
at `m` itself. -/
theorem removeLoop_sim (h : Heap) (id : String) : ∀ ks : List Tree,
    ∀ fuel m (pre : List Addr),
    AgreesL h ks → I3TL h ks → sizeL ks ≤ fuel →
    (m :: addrsL ks).Nodup →
    (h m).SubMenu = pre ++ rootsOf ks →
    (removeT h ks id = none →
      removeLoop fuel h m (rootsOf ks) pre.length id = (h, false)) ∧
    (∀ ks', removeT h ks id = some ks' →
      ∃ p j, p ∈ m :: addrsL ks ∧
        removeLoop fuel h m (rootsOf ks) pre.length id = (spliceOut h p j, true) ∧
        ((spliceOut h p j) m).SubMenu = pre ++ rootsOf ks' ∧
        AgreesL (spliceOut h p j) ks') := by
  refine forest_ind (fun ks => ∀ fuel m (pre : List Addr),
    AgreesL h ks → I3TL h ks → sizeL ks ≤ fuel →
    (m :: addrsL ks).Nodup →
    (h m).SubMenu = pre ++ rootsOf ks →
    (removeT h ks id = none →
      removeLoop fuel h m (rootsOf ks) pre.length id = (h, false)) ∧
    (∀ ks', removeT h ks id = some ks' →
      ∃ p j, p ∈ m :: addrsL ks ∧
        removeLoop fuel h m (rootsOf ks) pre.length id = (spliceOut h p j, true) ∧
        ((spliceOut h p j) m).SubMenu = pre ++ rootsOf ks' ∧
        AgreesL (spliceOut h p j) ks')) ?_ ?_
  · intro fuel m pre _ _ _ _ _
    constructor
    · intro _
      simp only [rootsOf, List.map_nil]
      rw [removeLoop]
    · intro ks' hsome
      rw [removeT] at hsome
      exact absurd hsome (by simp)
  · intro b bks rest ihb ihr fuel m pre hagl hi3l hsz hnd hsub
    simp only [AgreesL] at hagl
    obtain ⟨hagb, hagr⟩ := hagl
    simp only [I3TL] at hi3l
    obtain ⟨hi3b, hi3r⟩ := hi3l
    simp only [Agrees] at hagb
    obtain ⟨hb1, hb2⟩ := hagb
    simp only [I3T] at hi3b
    obtain ⟨hi3b1, hi3b2⟩ := hi3b
    have hrootscons : rootsOf (Tree.node b bks :: rest) = b :: rootsOf rest := by
      simp [rootsOf, Tree.root]
    have hX : addrsL (Tree.node b bks :: rest) = (b :: addrsL bks) ++ addrsL rest := by
      simp [addrsL, Tree.addrs]
    have hndfacts : ((m :: (b :: addrsL bks) ++ addrsL rest)).Nodup := by
      rw [hX] at hnd
      simpa using hnd
    have hmnot : m ∉ (b :: addrsL bks) ++ addrsL rest :=
      (List.nodup_cons.mp (by simpa using hndfacts)).1
    have hndXY : ((b :: addrsL bks) ++ addrsL rest).Nodup :=
      (List.nodup_cons.mp (by simpa using hndfacts)).2
    have hndX : (b :: addrsL bks).Nodup := (List.nodup_append.mp hndXY).1
    have hndY : (addrsL rest).Nodup := (List.nodup_append.mp hndXY).2.1
    have hdisXY : (b :: addrsL bks).Disjoint (addrsL rest) :=
      (List.nodup_append.mp hndXY).2.2
    have hmX : m ∉ b :: addrsL bks := fun hc => hmnot (List.mem_append_left _ hc)
    have hmY : m ∉ addrsL rest := fun hc => hmnot (List.mem_append_right _ hc)
    have hsub' : (h m).SubMenu = pre ++ b :: rootsOf rest := by
      rw [hsub, hrootscons]
    -- the item scanned by the loop in this step is `b`
    rw [hrootscons]
    have hmemX : ∀ q ∈ b :: addrsL bks, q ∈ m :: addrsL (Tree.node b bks :: rest) := by
      intro q hq
      rw [hX]
      exact List.mem_cons_of_mem m (List.mem_append_left _ hq)
    have hmemY : ∀ q ∈ m :: addrsL rest, q ∈ m :: addrsL (Tree.node b bks :: rest) := by
      intro q hq
      rcases List.mem_cons.mp hq with h1 | h2
      · exact h1 ▸ List.mem_cons_self _ _
      · rw [hX]
        exact List.mem_cons_of_mem m (List.mem_append_right _ h2)
    by_cases hid : (h b).ID = id
    · -- first pre-order match is the scanned child itself: splice it out of m
      constructor
      · intro hnone
        rw [removeT, if_pos hid] at hnone
        exact absurd hnone (by simp)
      · intro ks' hsome
        rw [removeT, if_pos hid] at hsome
        injection hsome with h1
        subst h1
        refine ⟨m, pre.length, List.mem_cons_self _ _, ?_, ?_, ?_⟩
        · rw [removeLoop, if_pos hid]
          rfl
        · rw [spliceOut_self_SubMenu, hsub']
          exact splice_middle pre (rootsOf rest) b
        · rw [AgreesL_iff]
          intro k hk
          refine Agrees_congr h _ k ?_ ((AgreesL_iff h rest).mp hagr k hk)
          intro q hq
          refine congrArg MenuItem.SubMenu (spliceOut_other h m pre.length q ?_)
          intro hqm
          exact hmY (hqm ▸ addrs_sub_of_mem k rest hk q hq)
    · by_cases hty : (h b).type = MenuType.SubmenuType
      · -- recurse into the submenu child b
        have hone : 1 ≤ sizeL (Tree.node b bks :: rest) := by
          simp only [sizeL, Tree.size]
          omega
        cases fuel with
        | zero => omega
        | succ f =>
          have hsizes : sizeL bks ≤ f ∧ sizeL rest ≤ f + 1 := by
            simp only [sizeL, Tree.size] at hsz
            omega
          have ihb' := ihb f b [] hb2 hi3b2 hsizes.1 hndX (by simpa using hb1)
          simp only [List.length_nil] at ihb'
          cases hbk : removeT h bks id with
          | none =>
            have hrb : removeByID (f + 1) h b id = (h, false) := by
              rw [removeByID, hb1]
              exact ihb'.1 hbk
            have hloopstep :
                removeLoop (f + 1) h m (b :: rootsOf rest) pre.length id
                  = removeLoop (f + 1) h m (rootsOf rest) (pre.length + 1) id := by
              rw [removeLoop, if_neg hid, if_pos hty, hrb]
            have hndmr : (m :: addrsL rest).Nodup :=
              List.nodup_cons.mpr ⟨hmY, hndY⟩
            have ihr' := ihr (f + 1) m (pre ++ [b]) hagr hi3r hsizes.2 hndmr
              (by rw [hsub']; simp)
            simp only [List.length_append, List.length_cons, List.length_nil] at ihr'
            constructor
            · intro hnone
              rw [removeT, if_neg hid, hbk] at hnone
              cases hrs : removeT h rest id with
              | some l =>
                rw [hrs] at hnone
                exact absurd hnone (by simp)
              | none =>
                rw [hloopstep]
                exact ihr'.1 hrs
            · intro ks' hsome
              rw [removeT, if_neg hid, hbk] at hsome
              cases hrs : removeT h rest id with
              | none =>
                rw [hrs] at hsome
                exact absurd hsome (by simp)
              | some rest' =>
                rw [hrs] at hsome
                injection hsome with h1
                subst h1
                obtain ⟨p, j, hp, heq, hsubm, hagl'⟩ := ihr'.2 rest' hrs
                have hpnotX : ∀ q ∈ b :: addrsL bks, q ≠ p := by
                  intro q hq hqp
                  rcases List.mem_cons.mp hp with h1 | h2
                  · exact hmX ((h1 ▸ hqp) ▸ hq)
                  · exact hdisXY hq (hqp ▸ h2)
                refine ⟨p, j, hmemY p hp, ?_, ?_, ?_⟩
                · rw [hloopstep]
                  exact heq
                · rw [hsubm]
                  simp [rootsOf, Tree.root]
                · simp only [AgreesL]
                  refine ⟨?_, hagl'⟩
                  refine Agrees_congr h _ (Tree.node b bks) ?_ (by
                    simp only [Agrees]
                    exact ⟨hb1, hb2⟩)
                  intro q hq
                  refine congrArg MenuItem.SubMenu (spliceOut_other h p j q ?_)
                  exact hpnotX q (by simpa [Tree.addrs] using hq)
          | some bks' =>
            obtain ⟨p, j, hp, heq, hsubm, hagl'⟩ := ihb'.2 bks' hbk
            have hrb : removeByID (f + 1) h b id = (spliceOut h p j, true) := by
              rw [removeByID, hb1]
              exact heq
            have hloopstep :
                removeLoop (f + 1) h m (b :: rootsOf rest) pre.length id
                  = (spliceOut h p j, true) := by
              rw [removeLoop, if_neg hid, if_pos hty, hrb]
            have hpm : p ≠ m := by
              intro hpm
              exact hmX (hpm ▸ hp)
            constructor
            · intro hnone
              rw [removeT, if_neg hid, hbk] at hnone
              exact absurd hnone (by simp)
            · intro ks' hsome
              rw [removeT, if_neg hid, hbk] at hsome
              injection hsome with h1
              subst h1
              refine ⟨p, j, hmemX p hp, hloopstep, ?_, ?_⟩
              · rw [congrArg MenuItem.SubMenu (spliceOut_other h p j m (Ne.symm hpm)),
                  hsub']
                simp [rootsOf, Tree.root]
              · simp only [AgreesL]
                refine ⟨?_, ?_⟩
                · simp only [Agrees]
                  refine ⟨by simpa using hsubm, hagl'⟩
                · rw [AgreesL_iff]
                  intro k hk
                  refine Agrees_congr h _ k ?_ ((AgreesL_iff h rest).mp hagr k hk)
                  intro q hq
                  refine congrArg MenuItem.SubMenu (spliceOut_other h p j q ?_)
                  intro hqp
                  exact hdisXY hp (hqp ▸ addrs_sub_of_mem k rest hk q hq)
      · -- non-submenu child: the code skips it; I3 says it has no kids
        have hbksnil : bks = [] := hi3b1 hty
        subst hbksnil
        have hbk : removeT h ([] : List Tree) id = none := by
          rw [removeT]
        have hloopstep :
            removeLoop fuel h m (b :: rootsOf rest) pre.length id
              = removeLoop fuel h m (rootsOf rest) (pre.length + 1) id := by
          rw [removeLoop, if_neg hid, if_neg hty]
        have hndmr : (m :: addrsL rest).Nodup :=
          List.nodup_cons.mpr ⟨hmY, hndY⟩
        have hszr : sizeL rest ≤ fuel := by
          simp only [sizeL, Tree.size] at hsz
          omega
        have ihr' := ihr fuel m (pre ++ [b]) hagr hi3r hszr hndmr
          (by rw [hsub']; simp)
        simp only [List.length_append, List.length_cons, List.length_nil] at ihr'
        constructor
        · intro hnone
          rw [removeT, if_neg hid, hbk] at hnone
          cases hrs : removeT h rest id with
          | some l =>
            rw [hrs] at hnone
            exact absurd hnone (by simp)
          | none =>
            rw [hloopstep]
            exact ihr'.1 hrs
        · intro ks' hsome
          rw [removeT, if_neg hid, hbk] at hsome
          cases hrs : removeT h rest id with
          | none =>
            rw [hrs] at hsome
            exact absurd hsome (by simp)
          | some rest' =>
            rw [hrs] at hsome
            injection hsome with h1
            subst h1
            obtain ⟨p, j, hp, heq, hsubm, hagl'⟩ := ihr'.2 rest' hrs
            have hpnotX : ∀ q ∈ b :: addrsL ([] : List Tree), q ≠ p := by
              intro q hq hqp
              rcases List.mem_cons.mp hp with h1 | h2
              · exact hmX ((h1 ▸ hqp) ▸ hq)
              · exact hdisXY hq (hqp ▸ h2)
            refine ⟨p, j, hmemY p hp, ?_, ?_, ?_⟩
            · rw [hloopstep]
              exact heq
            · rw [hsubm]
              simp [rootsOf, Tree.root]
            · simp only [AgreesL]
              refine ⟨?_, hagl'⟩
              refine Agrees_congr h _ (Tree.node b []) ?_ (by
                simp only [Agrees]
                exact ⟨hb1, hb2⟩)
              intro q hq
              refine congrArg MenuItem.SubMenu (spliceOut_other h p j q ?_)
              exact hpnotX q (by simpa [Tree.addrs] using hq)

/-- Node-level simulation: `removeByID` invoked on the root of a realized
tree either leaves the heap untouched (no match) or performs exactly the
splice prescribed by `removeT`. -/
theorem removeByID_sim (h : Heap) (id : String) (t : Tree) (fuel : Nat)
    (hag : Agrees h t) (hi3 : I3T h t) (hnd : t.addrs.Nodup)
    (hfuel : t.size ≤ fuel) :
    (removeT h t.kids id = none → removeByID fuel h t.root id = (h, false)) ∧
    (∀ ks', removeT h t.kids id = some ks' →
      ∃ p j, p ∈ t.addrs ∧
        removeByID fuel h t.root id = (spliceOut h p j, true) ∧
        Agrees (spliceOut h p j) (Tree.node t.root ks')) := by
  cases t with
  | node a ks =>
    simp only [Tree.root, Tree.kids, Tree.addrs] at hnd ⊢
    simp only [Agrees] at hag
    obtain ⟨h1, h2⟩ := hag
    simp only [I3T] at hi3
    cases fuel with
    | zero =>
      exfalso
      simp only [Tree.size] at hfuel
      omega
    | succ f =>
      have hszks : sizeL ks ≤ f := by
        simp only [Tree.size] at hfuel
        omega
      have hsim := removeLoop_sim h id ks f a [] h2 hi3.2 hszks hnd
        (by simpa using h1)
      simp only [List.length_nil] at hsim
      constructor
      · intro hnone
        rw [removeByID, h1]
        exact hsim.1 hnone
      · intro ks' hsome
        obtain ⟨p, j, hp, heq, hsubm, hagl'⟩ := hsim.2 ks' hsome
        refine ⟨p, j, hp, ?_, ?_⟩
        · rw [removeByID, h1]
          exact heq
        · simp only [Agrees]
          exact ⟨by simpa using hsubm, hagl'⟩

/-! ## C2: removeByID removes the first pre-order descendant match -/

/-- **C2.** `removeByID` searches only the receiver's descendants — it never
matches the receiver itself — in pre-order over children, left to right,
then depth: on a heap realizing a tree (invariants I2–I3), it returns
`false` leaving the heap completely unchanged exactly when no descendant
carries the id; otherwise it returns `true` having performed the single
splice `removeT` (the spec-side first-pre-order-match removal) prescribes:
the matched node is dropped from its parent's children list, the gap is
closed preserving the remaining siblings' order, and the heap afterwards
realizes the pruned tree. -/
theorem removeByID_spec (h : Heap) (t : Tree) (id : String) (fuel : Nat)
    (hag : Agrees h t) (hi3 : I3T h t) (hnd : t.addrs.Nodup)
    (hfuel : t.size ≤ fuel) :
    ((∀ b ∈ addrsL t.kids, (h b).ID ≠ id) →
      removeByID fuel h t.root id = (h, false)) ∧
    (∀ ks', removeT h t.kids id = some ks' →
      ∃ p j, p ∈ t.addrs ∧
        removeByID fuel h t.root id = (spliceOut h p j, true) ∧
        (spliceOut h p j p).SubMenu
          = (h p).SubMenu.take j ++ (h p).SubMenu.drop (j + 1) ∧
        Agrees (spliceOut h p j) (Tree.node t.root ks')) ∧
    ((removeByID fuel h t.root id).2 = true ↔
      ∃ b ∈ addrsL t.kids, (h b).ID = id) := by
  have hsim := removeByID_sim h id t fuel hag hi3 hnd hfuel
  refine ⟨?_, ?_, ?_⟩
  · intro hnone
    exact hsim.1 ((removeT_none_iff h id t.kids).mpr hnone)
  · intro ks' hsome
    obtain ⟨p, j, hp, heq, hagx⟩ := hsim.2 ks' hsome
    exact ⟨p, j, hp, heq, spliceOut_self_SubMenu h p j, hagx⟩
  · constructor
    · intro htrue
      by_contra hno
      push_neg at hno
      have := hsim.1 ((removeT_none_iff h id t.kids).mpr hno)
      rw [this] at htrue
      exact absurd htrue (by simp)
    · intro ⟨b, hb, hid⟩
      cases hrt : removeT h t.kids id with
      | none =>
        exact absurd ((removeT_none_iff h id t.kids).mp hrt b hb) (by simp [hid])
      | some ks' =>
        obtain ⟨p, j, _, heq, _⟩ := hsim.2 ks' hrt
        rw [heq]

theorem removeByID_spec_witness :
    Agrees hW tW ∧ I3T hW tW ∧ tW.addrs.Nodup ∧ tW.size ≤ 4 ∧
    removeT hW tW.kids "d1" = some [Tree.node 1 [], Tree.node 2 []] ∧
    (removeByID 4 hW tW.root "d1").2 = true ∧
    removeByID 4 hW tW.root "zz" = (hW, false) := by
  have hag : Agrees hW tW := by
    simp [Agrees, AgreesL, tW, hW, rootsOf, Tree.root, blank]
  have hi3 : I3T hW tW := by
    simp [I3T, I3TL, tW, hW, blank]
  have hnd : tW.addrs.Nodup := by
    simp only [tW, Tree.addrs, addrsL]
    decide
  have hsz : tW.size ≤ 4 := by
    simp [tW, Tree.size, sizeL]
  have hrt : removeT hW tW.kids "d1" = some [Tree.node 1 [], Tree.node 2 []] := by
    simp [removeT, tW, Tree.kids, hW, blank]
  refine ⟨hag, hi3, hnd, hsz, hrt, ?_, ?_⟩
  · obtain ⟨p, j, _, heq, _, _⟩ :=
      (removeByID_spec hW tW "d1" 4 hag hi3 hnd hsz).2.1 _ hrt
    rw [heq]
  · refine (removeByID_spec hW tW "zz" 4 hag hi3 hnd hsz).1 ?_
    intro b hb
    simp only [tW, Tree.kids, addrsL, Tree.addrs, List.append_nil] at hb
    fin_cases hb <;> decide

/-! ## C10: lookup descends everywhere, removal only into submenus -/

/-- **C10.** `getByID` descends into every node's children list regardless
of the node's kind, while `removeByID` recurses only into children of
Submenu kind: on the heap `hX` — where the Text node at address 1 has a
non-empty children list containing the node with id `"s"` (an I3 violation
installed by direct field assignment) — `getByID` finds that node while
`removeByID` returns `false` and leaves the heap untouched. -/
theorem lookup_removal_asymmetry :
    (hX 1).type ≠ MenuType.SubmenuType ∧ (hX 1).SubMenu = [2] ∧
    (hX 2).ID = "s" ∧
    getByID 3 hX 0 "s" = some 2 ∧
    removeByID 3 hX 0 "s" = (hX, false) := by
  refine ⟨by decide, rfl, rfl, by decide, ?_⟩
  simp [removeByID, removeLoop, hX, blank]

theorem I3T_congr (h h' : Heap) : ∀ t : Tree,
    (∀ b ∈ t.addrs, (h' b).type = (h b).type) →
    I3T h t → I3T h' t := by
  intro t
  induction t using Tree.ind with
  | hnode a ks ih =>
    intro hsame hi3
    simp only [I3T] at hi3 ⊢
    obtain ⟨h1, h2⟩ := hi3
    refine ⟨?_, ?_⟩
    · rw [hsame a (by simp [Tree.addrs])]
      exact h1
    · rw [I3TL_iff] at h2 ⊢
      intro k hk
      refine ih k hk ?_ (h2 k hk)
      intro b hb
      refine hsame b ?_
      simp only [Tree.addrs, List.mem_cons]
      exact Or.inr (addrs_sub_of_mem k ks hk b hb)

/-! ## From tree invariants to the claim's containment-phrased I1 -/

theorem mem_addrsL (ks : List Tree) (b : Addr) :
    b ∈ addrsL ks ↔ ∃ k ∈ ks, b ∈ k.addrs := by
  induction ks with
  | nil => simp [addrsL]
  | cons t ts ih =>
    simp only [addrsL, List.mem_append, ih, List.mem_cons]
    constructor
    · rintro (hb | ⟨k, hk, hbk⟩)
      · exact ⟨t, Or.inl rfl, hb⟩
      · exact ⟨k, Or.inr hk, hbk⟩
    · rintro ⟨k, hk | hk, hbk⟩
      · exact Or.inl (hk ▸ hbk)
      · exact Or.inr ⟨k, hk, hbk⟩

/-- A contained node's parent pointer is exactly its container. -/
theorem tree_edges (h : Heap) : ∀ t : Tree,
    Agrees h t → ParentsOK h t →
    ∀ p ∈ t.addrs, ∀ c ∈ (h p).SubMenu, (h c).parent = some p := by
  intro t
  induction t using Tree.ind with
  | hnode a ks ih =>
    intro hag hpo p hp c hc
    simp only [Agrees] at hag
    obtain ⟨h1, h2⟩ := hag
    simp only [ParentsOK] at hpo
    simp only [Tree.addrs, List.mem_cons] at hp
    rcases hp with h3 | h4
    · subst h3
      rw [h1] at hc
      rcases List.mem_map.mp hc with ⟨k, hk, hroot⟩
      rw [← hroot]
      exact ((ParentsOKL_iff h p ks).mp hpo k hk).1
    · obtain ⟨k, hk, hpk⟩ := (mem_addrsL ks p).mp h4
      exact ih k hk ((AgreesL_iff h ks).mp h2 k hk)
        ((ParentsOKL_iff h a ks).mp hpo k hk).2 p hpk c hc

/-- Every address of a realized tree is its root or contained in some
node's children list. -/
theorem mem_root_or_contained (h : Heap) : ∀ t : Tree,
    Agrees h t →
    ∀ c ∈ t.addrs, c = t.root ∨ ∃ p ∈ t.addrs, c ∈ (h p).SubMenu := by
  intro t
  induction t using Tree.ind with
  | hnode a ks ih =>
    intro hag c hc
    simp only [Agrees] at hag
    obtain ⟨h1, h2⟩ := hag
    simp only [Tree.addrs, List.mem_cons] at hc
    rcases hc with h3 | h4
    · exact Or.inl (by simp [Tree.root, h3])
    · obtain ⟨k, hk, hck⟩ := (mem_addrsL ks c).mp h4
      rcases ih k hk ((AgreesL_iff h ks).mp h2 k hk) c hck with h5 | h6
      · refine Or.inr ⟨a, by simp [Tree.addrs], ?_⟩
        rw [h1]
        exact h5 ▸ List.mem_map_of_mem Tree.root hk
      · obtain ⟨p, hp, hcp⟩ := h6
        refine Or.inr ⟨p, ?_, hcp⟩
        simp only [Tree.addrs, List.mem_cons]
        exact Or.inr (addrs_sub_of_mem k ks hk p hp)

/-- A heap realizing a tree whose edges are correct and whose root is
parentless satisfies the claim's containment reading of I1 on the tree's
addresses. -/
theorem I1set_of_tree (h : Heap) (t : Tree) (hag : Agrees h t)
    (hpo : ParentsOK h t) (hroot : (h t.root).parent = none) :
    I1set h t.addrs := by
  constructor
  · intro c hc hunc
    rcases mem_root_or_contained h t hag c hc with h1 | h2
    · exact h1 ▸ hroot
    · obtain ⟨p, hp, hcp⟩ := h2
      exact absurd hcp (hunc p hp)
  · intro p hp c hc
    exact tree_edges h t hag hpo p hp c hc

/-- Under I3, a node with a non-empty children list is a Submenu node. -/
theorem submenu_of_nonempty (h : Heap) : ∀ t : Tree,
    Agrees h t → I3T h t →
    ∀ p ∈ t.addrs, (h p).SubMenu ≠ [] →
    (h p).type = MenuType.SubmenuType := by
  intro t
  induction t using Tree.ind with
  | hnode a ks ih =>
    intro hag hi3 p hp hne
    simp only [Agrees] at hag
    obtain ⟨h1, h2⟩ := hag
    simp only [I3T] at hi3
    simp only [Tree.addrs, List.mem_cons] at hp
    rcases hp with h3 | h4
    · subst h3
      by_contra hty
      rw [h1, hi3.1 hty] at hne
      exact hne (by simp [rootsOf])
    · obtain ⟨k, hk, hpk⟩ := (mem_addrsL ks p).mp h4
      exact ih k hk ((AgreesL_iff h ks).mp h2 k hk)
        ((I3TL_iff h ks).mp hi3.2 k hk) p hpk hne

/-! ## Grafting a detached tree: the tree-level effect of insertion -/

theorem graftAt_root (p : Addr) (i : Nat) (tx t : Tree) :
    (graftAt p i tx t).root = t.root := by
  cases t with
  | node a ks =>
    rw [graftAt]
    by_cases hap : a = p
    · rw [if_pos hap]
      simp [Tree.root]
    · rw [if_neg hap]
      simp [Tree.root]

theorem rootsOf_graftAtL (p : Addr) (i : Nat) (tx : Tree) : ∀ ks,
    rootsOf (graftAtL p i tx ks) = rootsOf ks := by
  intro ks
  induction ks with
  | nil => rw [graftAtL]
  | cons k ksr ih =>
    rw [graftAtL]
    simp only [rootsOf, List.map_cons]
    rw [graftAt_root]
    exact congrArg (List.cons k.root) ih

theorem graftAtL_id (p : Addr) (i : Nat) (tx : Tree) : ∀ ks,
    (∀ k ∈ ks, graftAt p i tx k = k) → graftAtL p i tx ks = ks := by
  intro ks
  induction ks with
  | nil =>
    intro _
    rw [graftAtL]
  | cons k ksr ih =>
    intro hall
    rw [graftAtL, hall k (by simp),
      ih (fun q hq => hall q (List.mem_cons_of_mem k hq))]

theorem graftAt_not_mem (p : Addr) (i : Nat) (tx : Tree) : ∀ t : Tree,
    p ∉ t.addrs → graftAt p i tx t = t := by
  intro t
  induction t using Tree.ind with
  | hnode a ks ih =>
    intro hp
    simp only [Tree.addrs, List.mem_cons] at hp
    push_neg at hp
    obtain ⟨hpa, hpks⟩ := hp
    rw [graftAt, if_neg (fun hc => hpa hc.symm),
      graftAtL_id p i tx ks (fun k hk => ih k hk
        (fun hc => hpks (addrs_sub_of_mem k ks hk p hc)))]

/-- The grafted tree's addresses are the original ones plus the grafted
subtree's, as a permutation. -/
theorem graftAt_addrs (m : Addr) (i : Nat) (tx : Tree) : ∀ t : Tree,
    t.addrs.Nodup → m ∈ t.addrs →
    (graftAt m i tx t).addrs.Perm (t.addrs ++ tx.addrs) := by
  refine Tree.indPair
    (fun t => t.addrs.Nodup → m ∈ t.addrs →
      (graftAt m i tx t).addrs.Perm (t.addrs ++ tx.addrs))
    (fun ks => (addrsL ks).Nodup → m ∈ addrsL ks →
      (addrsL (graftAtL m i tx ks)).Perm (addrsL ks ++ tx.addrs)) ?_ ?_ ?_
  · intro a ks ihq hnd hm
    rw [graftAt]
    by_cases ham : a = m
    · rw [if_pos ham]
      simp only [Tree.addrs, insTree]
      rw [addrsL_append,
        show addrsL (tx :: List.drop i ks) = tx.addrs ++ addrsL (List.drop i ks)
          from by rw [addrsL]]
      have hk : addrsL (List.take i ks) ++ addrsL (List.drop i ks) = addrsL ks := by
        rw [← addrsL_append, List.take_append_drop]
      rw [List.cons_append]
      refine List.Perm.cons a ?_
      refine List.Perm.trans
        (List.Perm.append_left (addrsL (List.take i ks))
          (List.perm_append_comm)) ?_
      rw [← List.append_assoc, hk]
    · rw [if_neg ham]
      simp only [Tree.addrs] at hnd hm ⊢
      have hm' : m ∈ addrsL ks := by
        rcases List.mem_cons.mp hm with h1 | h2
        · exact absurd h1.symm ham
        · exact h2
      rw [List.cons_append]
      exact List.Perm.cons a (ihq (List.nodup_cons.mp hnd).2 hm')
  · intro _ hm
    simp [addrsL] at hm
  · intro k ts ihp ihq hnd hm
    simp only [addrsL] at hnd hm ⊢
    rw [List.nodup_append] at hnd
    obtain ⟨hnd1, hnd2, hdis⟩ := hnd
    rcases List.mem_append.mp hm with h1 | h2
    · have hnotts : m ∉ addrsL ts := fun hc => hdis h1 hc
      rw [graftAtL_id m i tx ts (fun q hq => graftAt_not_mem m i tx q
        (fun hc => hnotts (addrs_sub_of_mem q ts hq m hc)))]
      refine List.Perm.trans
        (List.Perm.append_right (addrsL ts) (ihp hnd1 h1)) ?_
      rw [List.append_assoc, List.append_assoc]
      exact List.Perm.append_left k.addrs List.perm_append_comm
    · have hnotk : m ∉ k.addrs := fun hc => hdis hc h2
      rw [graftAt_not_mem m i tx k hnotk, List.append_assoc]
      exact List.Perm.append_left k.addrs (ihq hnd2 h2)

theorem graftAtL_map (p : Addr) (i : Nat) (tx : Tree) : ∀ ks,
    graftAtL p i tx ks = ks.map (graftAt p i tx) := by
  intro ks
  induction ks with
  | nil =>
    rw [graftAtL, List.map_nil]
  | cons k ksr ih =>
    rw [graftAtL, ih, List.map_cons]

theorem root_not_mem_kids (t : Tree) (hnd : t.addrs.Nodup) :
    t.root ∉ addrsL t.kids := by
  cases t with
  | node a ks =>
    simp only [Tree.addrs] at hnd
    simp only [Tree.root, Tree.kids]
    exact (List.nodup_cons.mp hnd).1

theorem addrs_sublist_of_mem (k : Tree) (ks : List Tree) (hk : k ∈ ks) :
    k.addrs.Sublist (addrsL ks) := by
  induction ks with
  | nil => exact absurd hk (List.not_mem_nil k)
  | cons t ts ih =>
    rcases List.mem_cons.mp hk with h1 | h2
    · subst h1
      simp only [addrsL]
      exact List.sublist_append_left _ _
    · simp only [addrsL]
      exact List.Sublist.trans (ih h2) (List.sublist_append_right _ _)

/-- **Graft simulation.**  If `h'` differs from `h` only in that the
detached root `tx.root` now has parent `m` and `m`'s children list has
`tx.root` spliced in at index `i`, then `h'` realizes the grafted tree and
all its parent edges are correct. -/
theorem graft_sim (h h' : Heap) (tx : Tree) (m : Addr) (i : Nat)
    (hmtx : m ∉ tx.addrs)
    (hagx : Agrees h tx) (hpox : ParentsOK h tx) (hndx : tx.addrs.Nodup)
    (hp1 : ∀ b, b ≠ tx.root → b ≠ m → h' b = h b)
    (hp2a : (h' tx.root).parent = some m)
    (hp2b : (h' tx.root).SubMenu = (h tx.root).SubMenu)
    (hp3a : (h' m).SubMenu
      = (h m).SubMenu.take i ++ tx.root :: (h m).SubMenu.drop i)
    (hp3b : (h' m).parent = (h m).parent) :
    ∀ t : Tree,
    Agrees h t → ParentsOK h t → t.addrs.Nodup →
    (∀ b ∈ t.addrs, b ∉ tx.addrs) →
    m ∈ t.addrs →
    Agrees h' (graftAt m i tx t) ∧ ParentsOK h' (graftAt m i tx t) := by
  have hsubs : ∀ b, b ≠ m → (h' b).SubMenu = (h b).SubMenu := by
    intro b hb
    by_cases hbx : b = tx.root
    · subst hbx
      exact hp2b
    · rw [hp1 b hbx hb]
  have hpars : ∀ b, b ≠ tx.root → (h' b).parent = (h b).parent := by
    intro b hb
    by_cases hbm : b = m
    · subst hbm
      exact hp3b
    · rw [hp1 b hb hbm]
  have hagx' : Agrees h' tx := by
    refine Agrees_congr h h' tx ?_ hagx
    intro b hb
    exact hsubs b (fun hc => hmtx (hc ▸ hb))
  have hpox' : ParentsOK h' tx := by
    refine ParentsOK_congr h h' tx ?_ hpox
    intro b hb
    refine hpars b ?_
    intro hc
    exact root_not_mem_kids tx hndx (hc ▸ hb)
  intro t
  induction t using Tree.ind with
  | hnode a ks ih =>
    intro hag hpo hnd hdisj hm
    simp only [Agrees] at hag
    obtain ⟨h1, h2⟩ := hag
    simp only [ParentsOK] at hpo
    simp only [Tree.addrs] at hnd hm hdisj
    have hand := List.nodup_cons.mp hnd
    have hdisj' : ∀ b ∈ addrsL ks, b ∉ tx.addrs := fun b hb =>
      hdisj b (List.mem_cons_of_mem a hb)
    have hxroot_not : ∀ b ∈ addrsL ks, b ≠ tx.root := fun b hb hc =>
      (hdisj' b hb) (hc ▸ root_mem_addrs tx)
    by_cases ham : a = m
    · subst ham
      rw [graftAt, if_pos rfl]
      have hmem : ∀ k ∈ insTree i tx ks, k = tx ∨ k ∈ ks := by
        intro k hk
        simp only [insTree, List.mem_append, List.mem_cons] at hk
        rcases hk with h3 | h4 | h5
        · exact Or.inr (List.mem_of_mem_take h3)
        · exact Or.inl h4
        · exact Or.inr (List.mem_of_mem_drop h5)
      constructor
      · simp only [Agrees]
        constructor
        · rw [hp3a, h1]
          simp [insTree, rootsOf, List.map_append, List.map_cons,
            List.map_take, List.map_drop]
        · rw [AgreesL_iff]
          intro k hk
          rcases hmem k hk with h3 | h4
          · exact h3 ▸ hagx'
          · refine Agrees_congr h h' k ?_ ((AgreesL_iff h ks).mp h2 k h4)
            intro b hb
            refine hsubs b ?_
            intro hc
            exact hand.1 (hc ▸ addrs_sub_of_mem k ks h4 b hb)
      · simp only [ParentsOK]
        rw [ParentsOKL_iff]
        intro k hk
        rcases hmem k hk with h3 | h4
        · subst h3
          exact ⟨hp2a, hpox'⟩
        · have hkroot : k.root ∈ addrsL ks :=
            addrs_sub_of_mem k ks h4 k.root (root_mem_addrs k)
          constructor
          · rw [hpars k.root (hxroot_not k.root hkroot)]
            exact ((ParentsOKL_iff h a ks).mp hpo k h4).1
          · refine ParentsOK_congr h h' k ?_
              ((ParentsOKL_iff h a ks).mp hpo k h4).2
            intro b hb
            refine hpars b ?_
            exact hxroot_not b
              (addrs_sub_of_mem k ks h4 b (addrsL_kids_sub k b hb))
    · rw [graftAt, if_neg ham]
      have hm' : m ∈ addrsL ks := by
        rcases List.mem_cons.mp hm with h3 | h4
        · exact absurd h3.symm ham
        · exact h4
      have hkfacts : ∀ k, k ∈ ks →
          Agrees h' (graftAt m i tx k) ∧ ParentsOK h' (graftAt m i tx k) := by
        intro k hk
        by_cases hmk : m ∈ k.addrs
        · exact ih k hk ((AgreesL_iff h ks).mp h2 k hk)
            ((ParentsOKL_iff h a ks).mp hpo k hk).2
            (List.Nodup.sublist (addrs_sublist_of_mem k ks hk) hand.2)
            (fun b hb => hdisj' b (addrs_sub_of_mem k ks hk b hb)) hmk
        · rw [graftAt_not_mem m i tx k hmk]
          constructor
          · refine Agrees_congr h h' k ?_ ((AgreesL_iff h ks).mp h2 k hk)
            intro b hb
            exact hsubs b (fun hc => hmk (hc ▸ hb))
          · refine ParentsOK_congr h h' k ?_
              ((ParentsOKL_iff h a ks).mp hpo k hk).2
            intro b hb
            refine hpars b ?_
            exact hxroot_not b
              (addrs_sub_of_mem k ks hk b (addrsL_kids_sub k b hb))
      constructor
      · simp only [Agrees]
        constructor
        · rw [hsubs a ham, h1, rootsOf_graftAtL]
        · rw [graftAtL_map, AgreesL_iff]
          intro k' hk'
          rcases List.mem_map.mp hk' with ⟨k, hk, hk'eq⟩
          exact hk'eq ▸ (hkfacts k hk).1
      · simp only [ParentsOK]
        rw [graftAtL_map, ParentsOKL_iff]
        intro k' hk'
        rcases List.mem_map.mp hk' with ⟨k, hk, hk'eq⟩
        subst hk'eq
        have hkroot : k.root ∈ addrsL ks :=
          addrs_sub_of_mem k ks hk k.root (root_mem_addrs k)
        constructor
        · rw [graftAt_root, hpars k.root (hxroot_not k.root hkroot)]
          exact ((ParentsOKL_iff h a ks).mp hpo k hk).1
        · exact (hkfacts k hk).2

/-! ## Assembly pieces for invariant preservation -/

theorem ParentsOK_eq (h : Heap) (t : Tree) :
    ParentsOK h t ↔ ParentsOKL h t.root t.kids := by
  cases t with
  | node a ks => simp [ParentsOK, Tree.root, Tree.kids]

/-- Packaging: a heap change of the canonical graft shape preserves the
claim's I1 on the grafted tree. -/
theorem graft_I1 (h h' : Heap) (t tx : Tree) (m : Addr) (i : Nat)
    (hwf : WFT h t)
    (hagx : Agrees h tx) (hpox : ParentsOK h tx) (hndx : tx.addrs.Nodup)
    (hdisj : ∀ b ∈ t.addrs, b ∉ tx.addrs)
    (hm : m ∈ t.addrs)
    (hp1 : ∀ b, b ≠ tx.root → b ≠ m → h' b = h b)
    (hp2a : (h' tx.root).parent = some m)
    (hp2b : (h' tx.root).SubMenu = (h tx.root).SubMenu)
    (hp3a : (h' m).SubMenu
      = (h m).SubMenu.take i ++ tx.root :: (h m).SubMenu.drop i)
    (hp3b : (h' m).parent = (h m).parent) :
    ∃ t', t'.root = t.root ∧ Agrees h' t' ∧ I1set h' t'.addrs := by
  obtain ⟨hag, hpo, hroot, hnd, hi3⟩ := hwf
  have hmtx : m ∉ tx.addrs := hdisj m hm
  obtain ⟨hag', hpo'⟩ := graft_sim h h' tx m i hmtx hagx hpox hndx
    hp1 hp2a hp2b hp3a hp3b t hag hpo hnd hdisj hm
  refine ⟨graftAt m i tx t, graftAt_root m i tx t, hag', ?_⟩
  refine I1set_of_tree h' (graftAt m i tx t) hag' hpo' ?_
  rw [graftAt_root]
  have hsame : (h' t.root).parent = (h t.root).parent := by
    by_cases hrm : t.root = m
    · rw [hrm]
      exact hp3b
    · by_cases hrx : t.root = tx.root
      · exact absurd (hrx.symm ▸ root_mem_addrs tx)
          (hdisj t.root (root_mem_addrs t))
      · rw [hp1 t.root hrx hrm]
  rw [hsame, hroot]

/-- A failed (or untouched) operation trivially preserves I1. -/
theorem unchanged_I1 (h : Heap) (t : Tree) (hwf : WFT h t) :
    ∃ t', t'.root = t.root ∧ Agrees h t' ∧ I1set h t'.addrs :=
  ⟨t, rfl, hwf.1, I1set_of_tree h t hwf.1 hwf.2.1 hwf.2.2.1⟩

theorem getItemIndexLoop_mem (l : List Addr) (t : Addr) :
    t ∈ l → ∀ k, ∃ i, getItemIndexLoop l t k = some i := by
  induction l with
  | nil =>
    intro ht
    exact absurd ht (List.not_mem_nil t)
  | cons a rest ih =>
    intro ht k
    by_cases hat : a = t
    · exact ⟨k, by simp [getItemIndexLoop, hat]⟩
    · have ht' : t ∈ rest := by
        rcases List.mem_cons.mp ht with h1 | h2
        · exact absurd h1.symm hat
        · exact h2
      obtain ⟨i, hi⟩ := ih ht' (k + 1)
      exact ⟨i, by rw [getItemIndexLoop, if_neg hat]; exact hi⟩

/-- Pointwise shape of a successful `Append`. -/
theorem Append_shape (h : Heap) (m x : Addr) (hxm : x ≠ m)
    (hsub : (h m).type = MenuType.SubmenuType) :
    (Append h m x).2 = true ∧
    (∀ b, b ≠ x → b ≠ m → (Append h m x).1 b = h b) ∧
    ((Append h m x).1 x).parent = some m ∧
    ((Append h m x).1 x).SubMenu = (h x).SubMenu ∧
    ((Append h m x).1 m).SubMenu
      = (h m).SubMenu.take ((h m).SubMenu.length)
        ++ x :: (h m).SubMenu.drop ((h m).SubMenu.length) ∧
    ((Append h m x).1 m).parent = (h m).parent := by
  refine ⟨?_, ?_, ?_, ?_, ?_, ?_⟩
  · simp [Append, isSubMenu, hsub]
  · intro b hbx hbm
    simp [Append, isSubMenu, hsub, hset, hbx, hbm]
  · simp [Append, isSubMenu, hsub, hset, hxm]
  · simp [Append, isSubMenu, hsub, hset, hxm]
  · simp [Append, isSubMenu, hsub, hset, Ne.symm hxm,
      List.take_length, List.drop_length]
  · simp [Append, isSubMenu, hsub, hset, Ne.symm hxm]

/-- Pointwise shape of a successful `Prepend`. -/
theorem Prepend_shape (h : Heap) (m x : Addr) (hxm : x ≠ m)
    (hsub : (h m).type = MenuType.SubmenuType) :
    (Prepend h m x).2 = true ∧
    (∀ b, b ≠ x → b ≠ m → (Prepend h m x).1 b = h b) ∧
    ((Prepend h m x).1 x).parent = some m ∧
    ((Prepend h m x).1 x).SubMenu = (h x).SubMenu ∧
    ((Prepend h m x).1 m).SubMenu
      = (h m).SubMenu.take 0 ++ x :: (h m).SubMenu.drop 0 ∧
    ((Prepend h m x).1 m).parent = (h m).parent := by
  refine ⟨?_, ?_, ?_, ?_, ?_, ?_⟩
  · simp [Prepend, isSubMenu, hsub]
  · intro b hbx hbm
    simp [Prepend, isSubMenu, hsub, hset, hbx, hbm]
  · simp [Prepend, isSubMenu, hsub, hset, hxm]
  · simp [Prepend, isSubMenu, hsub, hset, hxm]
  · simp [Prepend, isSubMenu, hsub, hset, Ne.symm hxm]
  · simp [Prepend, isSubMenu, hsub, hset, Ne.symm hxm]

/-- Pointwise shape of a successful in-bounds `insertItemAtIndex`. -/
theorem insertItemAtIndex_shape (h : Heap) (m x : Addr) (i : Nat)
    (hle : i ≤ (h m).SubMenu.length) (hxm : x ≠ m) :
    (insertItemAtIndex h m i x).2 = true ∧
    (∀ b, b ≠ x → b ≠ m → (insertItemAtIndex h m i x).1 b = h b) ∧
    ((insertItemAtIndex h m i x).1 x).parent = some m ∧
    ((insertItemAtIndex h m i x).1 x).SubMenu = (h x).SubMenu ∧
    ((insertItemAtIndex h m i x).1 m).SubMenu
      = (h m).SubMenu.take i ++ x :: (h m).SubMenu.drop i ∧
    ((insertItemAtIndex h m i x).1 m).parent = (h m).parent := by
  have hnot : ¬ i > (h m).SubMenu.length := not_lt.mpr hle
  by_cases hil : i = (h m).SubMenu.length
  · subst hil
    refine ⟨?_, ?_, ?_, ?_, ?_, ?_⟩
    · simp [insertItemAtIndex, hset, Ne.symm hxm]
    · intro b hbx hbm
      simp [insertItemAtIndex, hset, Ne.symm hxm, hbx, hbm]
    · simp [insertItemAtIndex, hset, hxm, Ne.symm hxm]
    · simp [insertItemAtIndex, hset, hxm, Ne.symm hxm]
    · simp [insertItemAtIndex, hset, Ne.symm hxm,
        List.take_length, List.drop_length]
    · simp [insertItemAtIndex, hset, Ne.symm hxm]
  · refine ⟨?_, ?_, ?_, ?_, ?_, ?_⟩
    · simp [insertItemAtIndex, hset, hnot, hil, Ne.symm hxm]
    · intro b hbx hbm
      simp [insertItemAtIndex, hset, hnot, hil, Ne.symm hxm, hbx, hbm]
    · simp [insertItemAtIndex, hset, hnot, hil, hxm, Ne.symm hxm]
    · simp [insertItemAtIndex, hset, hnot, hil, hxm, Ne.symm hxm]
    · simp [insertItemAtIndex, hset, hnot, hil, Ne.symm hxm]
    · simp [insertItemAtIndex, hset, hnot, hil, Ne.symm hxm]

/-! ## C1: every structural operation preserves I1 -/

/-- **C1.** Starting from any tree satisfying I1–I3 (`WFT`), with a
detached well-formed item tree `tx` on fresh addresses, each structural
operation — `Append`/`Prepend` invoked at any node of the tree,
`InsertAfter`/`InsertBefore` invoked at any node of the tree, and
`removeByID` invoked on the root — leaves the tree in a state satisfying
I1: there is a tree description with the same root which the new heap
realizes and on whose addresses the claim's containment reading of I1
holds (the parent of the uncontained root node is `none`, and every
contained node's parent is exactly the node whose children list contains
it).  This covers failing invocations as well, which mutate nothing. -/
theorem invariants_preserved (h : Heap) (t tx : Tree)
    (hwf : WFT h t)
    (hagx : Agrees h tx) (hpox : ParentsOK h tx) (hndx : tx.addrs.Nodup)
    (hdisj : ∀ b ∈ t.addrs, b ∉ tx.addrs) :
    (∀ m ∈ t.addrs, ∃ t', t'.root = t.root ∧
        Agrees (Append h m tx.root).1 t' ∧
        I1set (Append h m tx.root).1 t'.addrs) ∧
    (∀ m ∈ t.addrs, ∃ t', t'.root = t.root ∧
        Agrees (Prepend h m tx.root).1 t' ∧
        I1set (Prepend h m tx.root).1 t'.addrs) ∧
    (∀ t0 ∈ t.addrs, ∃ t', t'.root = t.root ∧
        Agrees (InsertAfter h t0 tx.root).1 t' ∧
        I1set (InsertAfter h t0 tx.root).1 t'.addrs) ∧
    (∀ t0 ∈ t.addrs, ∃ t', t'.root = t.root ∧
        Agrees (InsertBefore h t0 tx.root).1 t' ∧
        I1set (InsertBefore h t0 tx.root).1 t'.addrs) ∧
    (∀ id fuel, t.size ≤ fuel → ∃ t', t'.root = t.root ∧
        Agrees (removeByID fuel h t.root id).1 t' ∧
        I1set (removeByID fuel h t.root id).1 t'.addrs) := by
  have hwf' := hwf
  obtain ⟨hag, hpo, hroot, hnd, hi3⟩ := hwf
  have hfreshroot : ∀ m ∈ t.addrs, tx.root ≠ m := fun m hm hc =>
    (hdisj m hm) (hc ▸ root_mem_addrs tx)
  refine ⟨?_, ?_, ?_, ?_, ?_⟩
  · intro m hm
    by_cases hsub : (h m).type = MenuType.SubmenuType
    · obtain ⟨_, hf1, hf2a, hf2b, hf3a, hf3b⟩ :=
        Append_shape h m tx.root (hfreshroot m hm) hsub
      exact graft_I1 h _ t tx m ((h m).SubMenu.length) hwf' hagx hpox hndx
        hdisj hm hf1 hf2a hf2b hf3a hf3b
    · have hfail : Append h m tx.root = (h, false) := by
        simp [Append, isSubMenu, hsub]
      rw [hfail]
      exact unchanged_I1 h t hwf'
  · intro m hm
    by_cases hsub : (h m).type = MenuType.SubmenuType
    · obtain ⟨_, hf1, hf2a, hf2b, hf3a, hf3b⟩ :=
        Prepend_shape h m tx.root (hfreshroot m hm) hsub
      exact graft_I1 h _ t tx m 0 hwf' hagx hpox hndx
        hdisj hm hf1 hf2a hf2b hf3a hf3b
    · have hfail : Prepend h m tx.root = (h, false) := by
        simp [Prepend, isSubMenu, hsub]
      rw [hfail]
      exact unchanged_I1 h t hwf'
  · intro t0 ht0
    by_cases hr : (h t0).parent = none
    · have hfail : InsertAfter h t0 tx.root = (h, false) := by
        simp [InsertAfter, hr]
      rw [hfail]
      exact unchanged_I1 h t hwf'
    · rcases mem_root_or_contained h t hag t0 ht0 with h1 | h2
      · exact absurd (h1 ▸ hroot) hr
      obtain ⟨p, hp, ht0p⟩ := h2
      have hpar : (h t0).parent = some p := tree_edges h t hag hpo p hp t0 ht0p
      have hsubp : (h p).type = MenuType.SubmenuType :=
        submenu_of_nonempty h t hag hi3 p hp (by
          intro hc
          rw [hc] at ht0p
          exact absurd ht0p (List.not_mem_nil t0))
      obtain ⟨idx, hidx⟩ := getItemIndexLoop_mem ((h p).SubMenu) t0 ht0p 0
      have hlt := getItemIndexLoop_lt ((h p).SubMenu) t0 0 idx hidx
      have hstep : InsertAfter h t0 tx.root
          = insertItemAtIndex h p (idx + 1) tx.root := by
        simp [InsertAfter, hpar, insertNewItemAfterGivenItem, isSubMenu,
          hsubp, getItemIndex, hidx]
      rw [hstep]
      obtain ⟨_, hf1, hf2a, hf2b, hf3a, hf3b⟩ :=
        insertItemAtIndex_shape h p tx.root (idx + 1) (by omega)
          (hfreshroot p hp)
      exact graft_I1 h _ t tx p (idx + 1) hwf' hagx hpox hndx
        hdisj hp hf1 hf2a hf2b hf3a hf3b
  · intro t0 ht0
    by_cases hr : (h t0).parent = none
    · have hfail : InsertBefore h t0 tx.root = (h, false) := by
        simp [InsertBefore, hr]
      rw [hfail]
      exact unchanged_I1 h t hwf'
    · rcases mem_root_or_contained h t hag t0 ht0 with h1 | h2
      · exact absurd (h1 ▸ hroot) hr
      obtain ⟨p, hp, ht0p⟩ := h2
      have hpar : (h t0).parent = some p := tree_edges h t hag hpo p hp t0 ht0p
      have hsubp : (h p).type = MenuType.SubmenuType :=
        submenu_of_nonempty h t hag hi3 p hp (by
          intro hc
          rw [hc] at ht0p
          exact absurd ht0p (List.not_mem_nil t0))
      obtain ⟨idx, hidx⟩ := getItemIndexLoop_mem ((h p).SubMenu) t0 ht0p 0
      have hlt := getItemIndexLoop_lt ((h p).SubMenu) t0 0 idx hidx
      have hstep : InsertBefore h t0 tx.root
          = insertItemAtIndex h p idx tx.root := by
        simp [InsertBefore, hpar, insertNewItemBeforeGivenItem, isSubMenu,
          hsubp, getItemIndex, hidx]
      rw [hstep]
      obtain ⟨_, hf1, hf2a, hf2b, hf3a, hf3b⟩ :=
        insertItemAtIndex_shape h p tx.root idx (by omega)
          (hfreshroot p hp)
      exact graft_I1 h _ t tx p idx hwf' hagx hpox hndx
        hdisj hp hf1 hf2a hf2b hf3a hf3b
  · intro id fuel hfuel
    cases hrt : removeT h t.kids id with
    | none =>
      have hnone := (removeByID_sim h id t fuel hag hi3 hnd hfuel).1 hrt
      rw [hnone]
      exact unchanged_I1 h t hwf'
    | some ks' =>
      obtain ⟨p, j, hp, heq, hagk⟩ :=
        (removeByID_sim h id t fuel hag hi3 hnd hfuel).2 ks' hrt
      rw [heq]
      refine ⟨Tree.node t.root ks', by simp [Tree.root], hagk, ?_⟩
      refine I1set_of_tree _ _ hagk ?_ ?_
      · have hpoks : ParentsOKL h t.root ks' :=
          removeT_parentsOK h id t.kids ks' t.root hrt ((ParentsOK_eq h t).mp hpo)
        refine ParentsOK_congr h _ (Tree.node t.root ks') ?_ (by
          simp only [ParentsOK]
          exact hpoks)
        intro b _
        exact spliceOut_parent h p j b
      · simp only [Tree.root]
        rw [spliceOut_parent]
        exact hroot

theorem invariants_preserved_witness :
    WFT hW tW ∧
    (∃ t', t'.root = tW.root ∧ Agrees (Append hW 0 4).1 t' ∧
      I1set (Append hW 0 4).1 t'.addrs) ∧
    (∃ t', t'.root = tW.root ∧ Agrees (Prepend hW 2 4).1 t' ∧
      I1set (Prepend hW 2 4).1 t'.addrs) ∧
    (∃ t', t'.root = tW.root ∧ Agrees (InsertAfter hW 1 4).1 t' ∧
      I1set (InsertAfter hW 1 4).1 t'.addrs) ∧
    (∃ t', t'.root = tW.root ∧ Agrees (InsertBefore hW 3 4).1 t' ∧
      I1set (InsertBefore hW 3 4).1 t'.addrs) ∧
    (∃ t', t'.root = tW.root ∧ Agrees (removeByID 4 hW tW.root "d1").1 t' ∧
      I1set (removeByID 4 hW tW.root "d1").1 t'.addrs) := by
  have hag : Agrees hW tW := by
    simp [Agrees, AgreesL, tW, hW, rootsOf, Tree.root, blank]
  have hpo : ParentsOK hW tW := by
    simp [ParentsOK, ParentsOKL, tW, hW, Tree.root, blank]
  have hroot : (hW tW.root).parent = none := rfl
  have hnd : tW.addrs.Nodup := by
    simp only [tW, Tree.addrs, addrsL]
    decide
  have hi3 : I3T hW tW := by
    simp [I3T, I3TL, tW, hW, blank]
  have hwf : WFT hW tW := ⟨hag, hpo, hroot, hnd, hi3⟩
  have hagx : Agrees hW tE := by
    simp [Agrees, AgreesL, tE, rootsOf, hW, blank]
  have hpox : ParentsOK hW tE := by
    simp [ParentsOK, ParentsOKL, tE]
  have hndx : tE.addrs.Nodup := by
    simp only [tE, Tree.addrs, addrsL]
    decide
  have hdisj : ∀ b ∈ tW.addrs, b ∉ tE.addrs := by
    intro b hb
    simp only [tW, Tree.addrs, addrsL] at hb
    fin_cases hb <;> decide
  have hs := invariants_preserved hW tW tE hwf hagx hpox hndx hdisj
  exact ⟨hwf, hs.1 0 (by decide), hs.2.1 2 (by decide),
    hs.2.2.1 1 (by decide), hs.2.2.2.1 3 (by decide),
    hs.2.2.2.2 "d1" 4 (by decide)⟩

end Menu
